import Mathlib

/-!
Verification development for the BeyondMIDI event-segmentation code.

The definitions below are a shallow embedding of the two segmentation
passes of the repository:

* `xmlStep` / `xmlFinish` / `xmlRun` embed the per-file loop of
  `XMLWriter` in `src/writer/XMLWriter.py` (lines 36-104): the state
  variables `measure`, `time_num`, `time_denom`, `note`, `octave`,
  `dynamic`, `still_rest`, the `data` and `duration` lists, and the
  final numpy post-processing that turns cumulative offsets into
  (measure, start_beat, duration, note, octave, dynamic) rows.
  Python `Fraction` values are embedded as `ℚ`; the Python `%` and `//`
  operators on rationals are floor-based, embedded as `ratMod` and
  `Int.floor`.  The trailing cast of every cell to the `'<S10'` numpy
  string dtype is not modelled: rows keep their semantic values.

* `midiStep` / `midiRun` embed `midi_writer` in
  `src/writer/MidiWriter.py` (lines 56-134) together with the helpers
  `vel2dyn` and `midi2name`, and `RoseEtudes.name_to_midi` of
  `src/loader/DataLoader.py`.  Python exceptions (`KeyError` on a
  missing dict key, `ZeroDivisionError` on a zero denominator,
  `NameError` on a variable read before assignment) are embedded as
  `Except` errors.  The `float(...)` casts applied when a value is
  appended to `rhythm_list` / `beats_list` are not modelled: the exact
  rationals are stored.
-/

deriving instance DecidableEq for Except

namespace BeyondMIDI

/-- Python's `%` on a `Fraction` and an integer divisor: floor-based
remainder, `q - n * ⌊q / n⌋`. -/
def ratMod (q n : ℚ) : ℚ := q - n * ⌊q / n⌋

theorem ratMod_eval (q n r : ℚ) (k : ℤ) (hn : 0 < n) (hq : q = n * k + r)
    (h0 : 0 ≤ r) (h1 : r < n) : ratMod q n = r := by
  have hne : n ≠ 0 := ne_of_gt hn
  have hfl : ⌊q / n⌋ = k := by
    have hdiv : q / n = k + r / n := by rw [hq]; field_simp; ring
    rw [hdiv, Int.floor_eq_iff]
    have hr0 : 0 ≤ r / n := div_nonneg h0 (le_of_lt hn)
    have hr1 : r / n < 1 := by rwa [div_lt_one hn]
    exact ⟨by linarith, by linarith⟩
  rw [ratMod, hfl, hq]; ring

theorem ratMod_zero_left (n : ℚ) : ratMod 0 n = 0 := by
  simp [ratMod]

theorem ratMod_nonneg (q n : ℚ) (hn : 0 < n) : 0 ≤ ratMod q n := by
  rw [ratMod, sub_nonneg]
  calc n * ⌊q / n⌋ ≤ n * (q / n) :=
        mul_le_mul_of_nonneg_left (Int.floor_le _) (le_of_lt hn)
    _ = q := by field_simp

theorem ratMod_lt (q n : ℚ) (hn : 0 < n) : ratMod q n < n := by
  rw [ratMod, sub_lt_iff_lt_add]
  have h := Int.lt_floor_add_one (q / n)
  calc q = n * (q / n) := by field_simp
    _ < n * (⌊q / n⌋ + 1) := by
        exact mul_lt_mul_of_pos_left h hn
    _ = n + n * ⌊q / n⌋ := by ring

/-! ### The `XMLWriter` segmentation pass (`src/writer/XMLWriter.py`) -/

/-- One message of the `song.recurse()` traversal consumed by the
`XMLWriter` loop, keyed by `msg.classes[0]`.  Note and Rest messages
carry the value of `metadata.currentHierarchyOffset()` observed when
they are processed (music21 offsets, in quarter-note units). -/
inductive XMsg where
  | note (name : String) (octave : ℤ) (tie : Option String) (offset : ℚ)
  | rest (offset : ℚ)
  | measureMark
  | timeSignature (numerator denominator : ℤ)
  | dynamic (value : String)
deriving DecidableEq

/-- One row of the intermediate `data` list:
`[str(measure) or token, note name, octave, dynamic]`. -/
abbrev XRow := String × String × ℤ × String

/-- The loop state of `XMLWriter` (lines 36-44).  `time` is `none`
until the Python variable `time` is first assigned. -/
structure XState where
  measure : ℤ
  time_num : ℤ
  time_denom : ℤ
  note : String
  octave : ℤ
  dynamic : String
  still_rest : Bool
  time : Option ℚ
  data : List XRow
  duration : List ℚ
deriving DecidableEq

/-- Initial state per file (lines 36-44): `measure = 0`,
`time_num = time_denom = 0`, `dynamic = 'none'`, `still_rest = True`,
`duration = [0]`, `data = [['start', 'rest', 0, 'none']]`. -/
def xmlInit : XState :=
  { measure := 0, time_num := 0, time_denom := 0, note := "", octave := 0,
    dynamic := "none", still_rest := true, time := none,
    data := [("start", "rest", 0, "none")], duration := [0] }

/-- One iteration of the `for msg in metadata` loop (lines 48-84). -/
def xmlStep (s : XState) (m : XMsg) : XState :=
  match m with
  | .note nm oc tie off =>
    -- lines 49-63: every Note assigns `note`, `octave`, `time`, and
    -- ends with `still_rest = False`; only a tie-start or an untied
    -- note appends to `duration` and `data`.
    let s := { s with note := nm, octave := oc, time := some off }
    match tie with
    | some t =>
      if t = "start" then
        { s with duration := s.duration ++ [off],
                 data := s.data ++ [(toString s.measure, nm, oc, s.dynamic)],
                 still_rest := false }
      else { s with still_rest := false }
    | none =>
      { s with duration := s.duration ++ [off],
               data := s.data ++ [(toString s.measure, nm, oc, s.dynamic)],
               still_rest := false }
  | .rest off =>
    -- lines 65-74: a Rest is emitted only when `still_rest` is false.
    if s.still_rest then s
    else
      { s with still_rest := true, note := "rest", time := some off,
               duration := s.duration ++ [off],
               data := s.data ++ [(toString s.measure, "rest", 0, "none")] }
  | .measureMark => { s with measure := s.measure + 1 }
  | .timeSignature nu de => { s with time_num := nu, time_denom := de }
  | .dynamic v => { s with dynamic := v }

/-- The Python exceptions the `XMLWriter` pass can raise. -/
inductive XErr where
  | nameError
  | zeroDivisionError
deriving DecidableEq

/-- One output row: measure text (or the `start`/`end` token),
`start_beat`, `duration`, note name, octave, dynamic. -/
abbrev Row := String × ℚ × ℚ × String × ℤ × String

/-- The post-loop phase (lines 86-103): append the end-of-last-note
padding to `duration`, pop a trailing rest row, append the `end`
token, scale offsets by `Fraction(time_denom / 4)`, and combine
`str(measure)`, `start_beat = scaled % time_num + 1` and
`duration = scaled[1:] - scaled[:-1]` into output rows.
Reading `time` before its first assignment raises `NameError`;
`time % time_num` with `time_num = 0` raises `ZeroDivisionError`. -/
def xmlFinish (s : XState) : Except XErr (List Row) :=
  match s.time with
  | none => .error .nameError
  | some t =>
    if s.time_num = 0 then .error .zeroDivisionError
    else
      let n : ℚ := (s.time_num : ℚ)
      let dur1 := s.duration ++ [t + n - ratMod t n]
      let data1 := if s.still_rest then s.data.dropLast else s.data
      let dur2 := if s.still_rest then dur1 else dur1 ++ [t + n + n - ratMod t n]
      let data2 := data1 ++ [("end", "rest", 0, "none")]
      let scaled := dur2.map (· * ((s.time_denom : ℚ) / 4))
      .ok (List.zipWith
        (fun (r : XRow) (p : ℚ × ℚ) =>
          (r.1, ratMod p.1 n + 1, p.2 - p.1, r.2.1, r.2.2.1, r.2.2.2))
        data2 (scaled.zip scaled.tail))

/-- The whole segmentation pass of `XMLWriter` for one file: fold the
loop body over the message stream, then post-process. -/
def xmlRun (msgs : List XMsg) : Except XErr (List Row) :=
  xmlFinish (msgs.foldl xmlStep xmlInit)

/-! ### The `midi_writer` pass (`src/writer/MidiWriter.py`) and the
pitch-name conversions -/

/-- The ordered velocity table of `vel2dyn` (lines 46-48). -/
def dyn_dict : List (ℤ × String) :=
  [(20, "ppp"), (31, "pp"), (42, "p"), (53, "mp"), (64, "mf"),
   (80, "f"), (96, "ff"), (112, "fff"), (127, "ffff")]

/-- `vel2dyn` (lines 36-53): exact dictionary lookup; on a miss the
`except` clause returns the raw velocity unchanged. -/
def vel2dyn (velocity : ℤ) : String ⊕ ℤ :=
  match dyn_dict.lookup velocity with
  | some word => .inl word
  | none => .inr velocity

/-- The note-name table of `midi2name` (line 29). -/
def note_names : List String :=
  ["C", "C#", "D", "D#", "E", "F"] ++ ["F#", "G", "G#", "A", "A#", "B"]

/-- `midi2name` (lines 15-33): midi value `0` is a rest `'R'`;
otherwise index the table by `(midi + offset) % 12` and compute the
octave as `(midi + offset) // 12 - 1` (Python floor division). -/
def midi2name (midi offset : ℤ) : String :=
  if midi = 0 then "R"
  else
    let note_val := midi + offset
    let note := note_names.getD (note_val % 12).toNat ""
    let octave := Int.fdiv note_val 12 - 1
    note ++ toString octave

/-- The name table of `RoseEtudes.name_to_midi`
(`src/loader/DataLoader.py` lines 54-61). -/
def rose_name_table : List (String × ℤ) :=
  [("rest", 0),
   ("C-", -1), ("C", 0), ("C#", 1), ("C##", 2),
   ("D-", 1), ("D", 2), ("D#", 3),
   ("E-", 3), ("E", 4), ("E#", 5),
   ("F-", 4), ("F", 5), ("F#", 6), ("F##", 7),
   ("G-", 6), ("G", 7), ("G#", 8), ("G##", 9),
   ("A-", 8), ("A", 9), ("A#", 10),
   ("B--", 9), ("B-", 10), ("B", 11), ("B#", 12)]

/-- The Python exceptions the `midi_writer` pass (and the loader's
name lookup) can raise. -/
inductive MErr where
  | keyError
  | zeroDivisionError
  | nameError
deriving DecidableEq

/-- `RoseEtudes.name_to_midi` (lines 44-63):
`midi = name[note] + (int(octave) + 1) * 12`; a missing key raises
`KeyError`. -/
def name_to_midi (note : String) (octave : ℤ) : Except MErr ℤ :=
  match rose_name_table.lookup note with
  | some v => .ok (v + (octave + 1) * 12)
  | none => .error .keyError

/-- One message of `rose_midi.tracks[0]`.  Only `time_signature`,
`set_tempo` and `note_on` are inspected by the loop; everything else
is ignored (constructor `other`). -/
inductive MMsg where
  | noteOn (note velocity time : ℤ)
  | timeSignature (numerator denominator : ℤ)
  | setTempo (tempo : ℤ)
  | other
deriving DecidableEq

/-- The etude bounds dictionary (lines 68-69). -/
structure EtudeCfg where
  start : ℤ
  stop : ℤ
  down_beat : ℤ
deriving DecidableEq

/-- `{1: {'start': 1, 'end': 43, 'down_beat': 1}, 2: {'start': 43,
'end': 50, 'down_beat': 1}}[etude_number]`; other keys raise
`KeyError`. -/
def etudeFor (etude_number : ℤ) : Except MErr EtudeCfg :=
  if etude_number = 1 then .ok ⟨1, 43, 1⟩
  else if etude_number = 2 then .ok ⟨43, 50, 1⟩
  else .error .keyError

/-- Static configuration of one `midi_writer` run. -/
structure MCfg where
  tpb : ℤ
  en : ℤ
  etude : EtudeCfg
deriving DecidableEq

/-- The mutable state of the `midi_writer` fold (lines 70-84).
`dynamics` is `none` until the Python variable `dynamics` is first
assigned; the six `*_list` accumulators are the output lists. -/
structure MState where
  played : List (ℤ × ℤ)
  sign : ℤ
  upper : ℤ
  lower : ℤ
  measure : ℤ
  rhythm : ℚ
  tempo : ℤ
  itr : ℤ
  dynamics : Option (String ⊕ ℤ)
  measure_list : List ℤ
  rhythm_list : List ℚ
  beats_list : List ℚ
  note_list : List String
  dynamics_list : List (String ⊕ ℤ)
  tempo_list : List ℤ
deriving DecidableEq

/-- Python dict assignment `d[k] = v`: update in place if the key
exists, else append at the end (insertion order preserved). -/
def dictSet (d : List (ℤ × ℤ)) (k v : ℤ) : List (ℤ × ℤ) :=
  if (d.lookup k).isSome then
    d.map (fun p => if p.1 = k then (p.1, v) else p)
  else d ++ [(k, v)]

/-- `np.any(np.array(list(played.values())) != 0)`. -/
def anyNonZero (vals : List ℤ) : Bool := vals.any (· ≠ 0)

/-- The `note_on` body of the loop (lines 102-134).  The two velocity
branches compute `ticks` as `msg.time - 1` (note start) or
`msg.time + 1` (note end, which also looks up `played[note]` for the
dynamic); if `ticks > 0` a row is appended to each output list, the
one-shot `itr` reset runs, the in-range progress print divides by
`upper_signature`, and `rhythm`/`measure` advance. -/
def midiEmit (cfg : MCfg) (s : MState) (note2 : ℤ) (beats : ℚ) :
    Except MErr MState :=
  -- lines 119-134, after the `ticks > 0` guard and the `beats` and
  -- `note *= sign` computations
  let s := { s with
    measure_list := s.measure_list ++ [s.measure],
    rhythm_list := s.rhythm_list ++ [s.rhythm],
    beats_list := s.beats_list ++ [beats],
    note_list := s.note_list ++ [midi2name note2 2] }
  let s :=
    if s.measure = cfg.etude.start ∧ s.itr ≠ cfg.en then
      { s with rhythm := (cfg.etude.down_beat : ℚ) - 1, itr := s.itr + 1 }
    else s
  -- the progress print (line 127) evaluates `rhythm % upper_signature`
  if (cfg.etude.start ≤ s.measure ∧ s.measure < cfg.etude.stop) ∧
      s.upper = (0 : ℤ) then .error .zeroDivisionError
  else
    let dyn : Except MErr (String ⊕ ℤ) :=
      if note2 ≠ 0 then
        match s.dynamics with
        | none => .error .nameError
        | some dv => .ok dv
      else .ok (.inl "NA")
    match dyn with
    | .error e => .error e
    | .ok dv =>
      let s := { s with
        dynamics_list := s.dynamics_list ++ [dv],
        tempo_list := s.tempo_list ++ [s.tempo],
        rhythm := s.rhythm + beats }
      if s.upper = (0 : ℤ) then .error .zeroDivisionError
      else .ok { s with measure := ⌊s.rhythm / (s.upper : ℚ)⌋ + 1 }

def midiNoteOn (cfg : MCfg) (s : MState) (note velocity time : ℤ) :
    Except MErr MState :=
  let branch : Except MErr (MState × ℤ) :=
    if velocity ≠ 0 then
      let sgn : ℤ := if anyNonZero (s.played.map (·.2)) then 1 else 0
      .ok ({ s with sign := sgn, played := dictSet s.played note velocity },
           time - 1)
    else
      match s.played.lookup note with
      | none => .error .keyError
      | some v =>
        .ok ({ s with sign := 1, dynamics := some (vel2dyn v),
                      played := dictSet s.played note 0 }, time + 1)
  match branch with
  | .error e => .error e
  | .ok (s, ticks) =>
    if ticks > 0 then
      if cfg.tpb * 4 = 0 then .error .zeroDivisionError
      else
        midiEmit cfg s (note * s.sign)
          (((ticks * s.lower : ℤ) : ℚ) / ((cfg.tpb * 4 : ℤ) : ℚ))
    else .ok s

/-- One iteration of `for msg in rose_midi.tracks[0]` (lines 85-134).
The `set_tempo` body is a commented-out block in the source, so the
message is a no-op. -/
def midiStep (cfg : MCfg) (s : MState) (msg : MMsg) : Except MErr MState :=
  match msg with
  | .timeSignature nu de => .ok { s with upper := nu, lower := de }
  | .setTempo _ => .ok s
  | .other => .ok s
  | .noteOn note velocity time => midiNoteOn cfg s note velocity time

/-- Initial state of `midi_writer` (lines 70-84). -/
def midiInit (e : EtudeCfg) : MState :=
  { played := [], sign := 0, upper := 0, lower := 0, measure := 1,
    rhythm := (e.down_beat : ℚ) - 1, tempo := 0, itr := 0, dynamics := none,
    measure_list := [], rhythm_list := [], beats_list := [],
    note_list := [], dynamics_list := [], tempo_list := [] }

/-- Folds `midiStep` over the track, propagating the first raised
exception. -/
def midiFold (cfg : MCfg) (s : MState) : List MMsg → Except MErr MState
  | [] => .ok s
  | msg :: rest =>
    match midiStep cfg s msg with
    | .error e => .error e
    | .ok s2 => midiFold cfg s2 rest

/-- The whole `midi_writer` fold: look up the etude bounds, then fold
the loop body over the track. -/
def midiRun (etude_number tpb : ℤ) (msgs : List MMsg) : Except MErr MState :=
  match etudeFor etude_number with
  | .error e => .error e
  | .ok e => midiFold ⟨tpb, etude_number, e⟩ (midiInit e) msgs

/-! ### Generic facts about the `XMLWriter` fold -/

theorem int_toString_zero : toString (0 : ℤ) = "0" := rfl

theorem int_toString_one : toString (1 : ℤ) = "1" := rfl

/-- A tied group in the music21 stream: one Note with `tie.type =
'start'` at offset `t0`, then continuation Notes, then one Note with
`tie.type = 'stop'`.  The claim's closing "NoteOff/tie-stop" is the
end of the sound, i.e. the onset of whatever follows the group. -/
def tieGroup (nm : String) (oc : ℤ) (t0 : ℚ) (mids : List ℚ) (tstop : ℚ) :
    List XMsg :=
  .note nm oc (some "start") t0 ::
    (mids.map (fun t => .note nm oc (some "continue") t) ++
      [.note nm oc (some "stop") tstop])

theorem contStopFold (nm : String) (oc : ℤ) (tstop : ℚ) :
    ∀ (mids : List ℚ) (s : XState),
      List.foldl xmlStep s
        (mids.map (fun t => XMsg.note nm oc (some "continue") t) ++
          [XMsg.note nm oc (some "stop") tstop]) =
      { s with note := nm, octave := oc, time := some tstop,
               still_rest := false } := by
  intro mids
  induction mids with
  | nil => intro s; simp [xmlStep]
  | cons t rest ih =>
    intro s
    simp only [List.map_cons, List.cons_append, List.foldl_cons]
    rw [ih]
    simp [xmlStep]

/-- Folding the loop over a whole tied group, from any prior state:
exactly one `data` row and one `duration` entry (the opening offset
`t0`) are appended, however many continuation events there are. -/
theorem tieGroupFold (nm : String) (oc : ℤ) (t0 : ℚ) (mids : List ℚ)
    (tstop : ℚ) (s : XState) :
    List.foldl xmlStep s (tieGroup nm oc t0 mids tstop) =
      { s with note := nm, octave := oc, time := some tstop,
               still_rest := false,
               data := s.data ++ [(toString s.measure, nm, oc, s.dynamic)],
               duration := s.duration ++ [t0] } := by
  rw [tieGroup, List.foldl_cons, contStopFold]
  simp [xmlStep]

/-- A whole piece containing one tied group: time signature `n/d`, a
measure, the group, and the following (untied) note at offset `tn` —
the moment the tied sound ends. -/
def c1msgs (nm : String) (oc : ℤ) (t0 : ℚ) (mids : List ℚ) (tstop : ℚ)
    (nm2 : String) (oc2 : ℤ) (tn : ℚ) (n d : ℤ) : List XMsg :=
  [.timeSignature n d, .measureMark] ++ tieGroup nm oc t0 mids tstop ++
    [.note nm2 oc2 none tn]

/-- **C1.** A tied group — NoteOn(tie=start) at `t0`, any number of
continuation events, closed by the tie-stop — produces exactly one
Record: (i) folding the loop over the group's messages appends exactly
one `data` row and one `duration` entry from any state, independently
of the number `mids.length` of continuations; (ii) on a whole piece
the output has exactly four Records for every choice of `mids`, the
group's Record starting at `t0` (start_beat `ratMod (t0·d/4) n + 1`)
with duration `(tn - t0)·d/4`, the distance from the opening NoteOn to
the end of the tied sound, converted to beats. -/
theorem c1_tie_group_single_record :
    (∀ (nm : String) (oc : ℤ) (t0 : ℚ) (mids : List ℚ) (tstop : ℚ)
        (s : XState),
      List.foldl xmlStep s (tieGroup nm oc t0 mids tstop) =
        { s with note := nm, octave := oc, time := some tstop,
                 still_rest := false,
                 data := s.data ++ [(toString s.measure, nm, oc, s.dynamic)],
                 duration := s.duration ++ [t0] }) ∧
    (∀ (nm : String) (oc : ℤ) (t0 : ℚ) (mids : List ℚ) (tstop : ℚ)
        (nm2 : String) (oc2 : ℤ) (tn : ℚ) (n d : ℤ), n ≠ 0 →
      xmlRun (c1msgs nm oc t0 mids tstop nm2 oc2 tn n d) =
        .ok [("start", 1, t0 * ((d : ℚ) / 4), "rest", 0, "none"),
             ("1", ratMod (t0 * ((d : ℚ) / 4)) (n : ℚ) + 1,
               (tn - t0) * ((d : ℚ) / 4), nm, oc, "none"),
             ("1", ratMod (tn * ((d : ℚ) / 4)) (n : ℚ) + 1,
               ((n : ℚ) - ratMod tn (n : ℚ)) * ((d : ℚ) / 4), nm2, oc2, "none"),
             ("end",
               ratMod ((tn + (n : ℚ) - ratMod tn (n : ℚ)) * ((d : ℚ) / 4))
                 (n : ℚ) + 1,
               (n : ℚ) * ((d : ℚ) / 4), "rest", 0, "none")]) := by
  constructor
  · exact tieGroupFold
  · intro nm oc t0 mids tstop nm2 oc2 tn n d hn
    rw [xmlRun, c1msgs]
    simp only [List.cons_append, List.nil_append, List.foldl_cons,
      List.foldl_append]
    rw [show List.foldl xmlStep
          (xmlStep (xmlStep xmlInit (XMsg.timeSignature n d)) XMsg.measureMark)
          (tieGroup nm oc t0 mids tstop) = _ from
        tieGroupFold nm oc t0 mids tstop _]
    simp only [xmlStep, xmlInit]
    simp [xmlFinish, hn, ratMod_zero_left, int_toString_one]
    ring_nf
    norm_num

/-- Witness for C1 at a concrete input: a tied group with two
continuation events inside one 4/4 measure. -/
theorem c1_tie_group_single_record_witness :
    xmlRun (c1msgs "A" 4 0 [1, 2] 3 "B" 4 4 4 4) =
      .ok [("start", 1, 0, "rest", 0, "none"),
           ("1", 1, 4, "A", 4, "none"),
           ("1", 1, 4, "B", 4, "none"),
           ("end", 1, 4, "rest", 0, "none")] := by
  have h := c1_tie_group_single_record.2 "A" 4 0 [1, 2] 3 "B" 4 4 4 4
    (by norm_num)
  rw [h]
  have e1 : ratMod 0 4 = 0 := ratMod_zero_left 4
  have e2 : ratMod 4 4 = 0 :=
    ratMod_eval 4 4 0 1 (by norm_num) (by norm_num) le_rfl (by norm_num)
  have e3 : ratMod 8 4 = 0 :=
    ratMod_eval 8 4 0 2 (by norm_num) (by norm_num) le_rfl (by norm_num)
  norm_num [e1, e2, e3]

/-! ### C2: rest collapsing -/

/-- A run of `1 + rs.length` consecutive Rest events, the first at
offset `r0`. -/
def restRun (r0 : ℚ) (rs : List ℚ) : List XMsg :=
  .rest r0 :: rs.map .rest

theorem restSkipFold :
    ∀ (rs : List ℚ) (s : XState), s.still_rest = true →
      List.foldl xmlStep s (rs.map XMsg.rest) = s := by
  intro rs
  induction rs with
  | nil => intro s _; rfl
  | cons r rest ih =>
    intro s hs
    simp only [List.map_cons, List.foldl_cons]
    rw [show xmlStep s (XMsg.rest r) = s by simp [xmlStep, hs]]
    exact ih s hs

/-- A rest run processed from a state with `still_rest = False`
appends exactly one rest row, stamped with the offset of the run's
first rest. -/
theorem restRunFold (r0 : ℚ) (rs : List ℚ) (s : XState)
    (hs : s.still_rest = false) :
    List.foldl xmlStep s (restRun r0 rs) =
      { s with still_rest := true, note := "rest", time := some r0,
               data := s.data ++ [(toString s.measure, "rest", 0, "none")],
               duration := s.duration ++ [r0] } := by
  have h1 : xmlStep s (XMsg.rest r0) =
      { s with still_rest := true, note := "rest", time := some r0,
               data := s.data ++ [(toString s.measure, "rest", 0, "none")],
               duration := s.duration ++ [r0] } := by
    simp [xmlStep, hs]
  rw [restRun, List.foldl_cons, h1]
  exact restSkipFold rs _ rfl

/-- A rest run processed from a state with `still_rest = True` is
skipped entirely: no row, no state change at all. -/
theorem restRunSkip (r0 : ℚ) (rs : List ℚ) (s : XState)
    (hs : s.still_rest = true) :
    List.foldl xmlStep s (restRun r0 rs) = s := by
  rw [restRun, List.foldl_cons,
    show xmlStep s (XMsg.rest r0) = s by simp [xmlStep, hs]]
  exact restSkipFold rs s hs

/-- **C2, counterexample.**  The input opens with a run of two Rest
events (`M = 2`) before the first Note.  The claim says the run must
produce exactly one Rest Record; because `still_rest` is initialised
to `True` (line 42), the run produces *no* Record at all: the output
contains only the `start` token, the note, and the `end` token. -/
theorem c2_counterexample :
    xmlRun [.timeSignature 4 4, .rest 0, .rest 1, .note "C" 4 none 2] =
      .ok [("start", 1, 2, "rest", 0, "none"),
           ("0", 3, 2, "C", 4, "none"),
           ("end", 1, 4, "rest", 0, "none")] := by
  have e0 : ratMod 0 4 = 0 := ratMod_zero_left 4
  have e2 : ratMod 2 4 = 2 :=
    ratMod_eval 2 4 2 0 (by norm_num) (by norm_num) (by norm_num) (by norm_num)
  have e4 : ratMod 4 4 = 0 :=
    ratMod_eval 4 4 0 1 (by norm_num) (by norm_num) le_rfl (by norm_num)
  simp [xmlRun, xmlFinish, xmlStep, xmlInit, e0, e2, e4, int_toString_zero]
  norm_num

/-- A piece whose rest run is preceded by a note: time signature,
measure, a note at `t1`, the run (first rest at `r0`), and the next
note at `tn` — the moment the rested span ends. -/
def c2msgs (nm : String) (oc : ℤ) (t1 : ℚ) (r0 : ℚ) (rs : List ℚ)
    (nm2 : String) (oc2 : ℤ) (tn : ℚ) (n d : ℤ) : List XMsg :=
  [.timeSignature n d, .measureMark, .note nm oc none t1] ++ restRun r0 rs ++
    [.note nm2 oc2 none tn]

/-- **C2, amended.**  `still_rest` starts `True` (line 42), not false:
(i) the initial state has `still_rest = true`; (ii) a run of `M ≥ 1`
consecutive Rest events reached with `still_rest = False` (i.e.
preceded by a Note) appends exactly one Rest row, at the run's first
offset, for every run length; (iii) a run reached with `still_rest =
True` — in particular a run at the very start of the stream — emits
nothing and leaves the state untouched; (iv) on a whole piece, the
single Rest Record's duration is `(tn - r0)·d/4`: the distance from
the run's first rest to the next sounded note, i.e. the run's total
span converted to beats, independent of the run length. -/
theorem c2_rest_collapsing_amended :
    xmlInit.still_rest = true ∧
    (∀ (r0 : ℚ) (rs : List ℚ) (s : XState), s.still_rest = false →
      List.foldl xmlStep s (restRun r0 rs) =
        { s with still_rest := true, note := "rest", time := some r0,
                 data := s.data ++ [(toString s.measure, "rest", 0, "none")],
                 duration := s.duration ++ [r0] }) ∧
    (∀ (r0 : ℚ) (rs : List ℚ) (s : XState), s.still_rest = true →
      List.foldl xmlStep s (restRun r0 rs) = s) ∧
    (∀ (nm : String) (oc : ℤ) (t1 : ℚ) (r0 : ℚ) (rs : List ℚ)
        (nm2 : String) (oc2 : ℤ) (tn : ℚ) (n d : ℤ), n ≠ 0 →
      xmlRun (c2msgs nm oc t1 r0 rs nm2 oc2 tn n d) =
        .ok [("start", 1, t1 * ((d : ℚ) / 4), "rest", 0, "none"),
             ("1", ratMod (t1 * ((d : ℚ) / 4)) (n : ℚ) + 1,
               (r0 - t1) * ((d : ℚ) / 4), nm, oc, "none"),
             ("1", ratMod (r0 * ((d : ℚ) / 4)) (n : ℚ) + 1,
               (tn - r0) * ((d : ℚ) / 4), "rest", 0, "none"),
             ("1", ratMod (tn * ((d : ℚ) / 4)) (n : ℚ) + 1,
               ((n : ℚ) - ratMod tn (n : ℚ)) * ((d : ℚ) / 4), nm2, oc2, "none"),
             ("end",
               ratMod ((tn + (n : ℚ) - ratMod tn (n : ℚ)) * ((d : ℚ) / 4))
                 (n : ℚ) + 1,
               (n : ℚ) * ((d : ℚ) / 4), "rest", 0, "none")]) := by
  refine ⟨rfl, restRunFold, restRunSkip, ?_⟩
  intro nm oc t1 r0 rs nm2 oc2 tn n d hn
  rw [xmlRun, c2msgs]
  simp only [List.cons_append, List.nil_append, List.foldl_cons,
    List.foldl_append]
  rw [show List.foldl xmlStep
        (xmlStep (xmlStep (xmlStep xmlInit (XMsg.timeSignature n d))
          XMsg.measureMark) (XMsg.note nm oc none t1)) (restRun r0 rs) = _ from
      restRunFold r0 rs _ (by simp [xmlStep, xmlInit])]
  simp only [xmlStep, xmlInit]
  simp [xmlFinish, hn, ratMod_zero_left, int_toString_one]
  ring_nf
  norm_num

/-- Witness for the amended C2 at a concrete input: a note at offset
0, a run of three rests starting at offset 1, the next note at offset
3, in one 4/4 measure. -/
theorem c2_rest_collapsing_amended_witness :
    xmlRun (c2msgs "C" 4 0 1 [(3 : ℚ)/2, 2] "D" 4 3 4 4) =
      .ok [("start", 1, 0, "rest", 0, "none"),
           ("1", 1, 1, "C", 4, "none"),
           ("1", 2, 2, "rest", 0, "none"),
           ("1", 4, 1, "D", 4, "none"),
           ("end", 1, 4, "rest", 0, "none")] := by
  have h := c2_rest_collapsing_amended.2.2.2 "C" 4 0 1 [(3 : ℚ)/2, 2] "D" 4 3
    4 4 (by norm_num)
  rw [h]
  have e0 : ratMod 0 4 = 0 := ratMod_zero_left 4
  have e1 : ratMod 1 4 = 1 :=
    ratMod_eval 1 4 1 0 (by norm_num) (by norm_num) (by norm_num) (by norm_num)
  have e3 : ratMod 3 4 = 3 :=
    ratMod_eval 3 4 3 0 (by norm_num) (by norm_num) (by norm_num) (by norm_num)
  have e4 : ratMod 4 4 = 0 :=
    ratMod_eval 4 4 0 1 (by norm_num) (by norm_num) le_rfl (by norm_num)
  norm_num [e0, e1, e3, e4]

/-! ### C4: the end token's duration -/

/-- **C4, counterexample.**  The claimed concrete scenario: the input
`[TimeSignatureChange(4/4), NoteOn(C4, tie=none, Δt=0), NoteOff(C4,
Δt=480)]` corresponds to the music21 stream `[TimeSignature 4/4, Note
C4 (no tie) at offset 0]`.  The claim expects
`[start@m1b1d0, Pitch(C,4)@m1b1d1, end@m1b2d3]`; the code instead
gives the note a duration of 4 (it runs to the measure boundary,
because note durations are differences of consecutive emitted
offsets) and the `end` token a duration of 4 — one *full* extra
measure starting at beat 1 — not the remainder 3 at beat 2. -/
theorem c4_counterexample :
    xmlRun [.timeSignature 4 4, .note "C" 4 none 0] =
      .ok [("start", 1, 0, "rest", 0, "none"),
           ("0", 1, 4, "C", 4, "none"),
           ("end", 1, 4, "rest", 0, "none")] ∧
    xmlRun [.timeSignature 4 4, .note "C" 4 none 0] ≠
      .ok [("start", 1, 0, "rest", 0, "none"),
           ("1", 1, 1, "C", 4, "none"),
           ("end", 2, 3, "rest", 0, "none")] := by
  have e0 : ratMod 0 4 = 0 := ratMod_zero_left 4
  have e4 : ratMod 4 4 = 0 :=
    ratMod_eval 4 4 0 1 (by norm_num) (by norm_num) le_rfl (by norm_num)
  have h : xmlRun [.timeSignature 4 4, .note "C" 4 none 0] =
      .ok [("start", 1, 0, "rest", 0, "none"),
           ("0", 1, 4, "C", 4, "none"),
           ("end", 1, 4, "rest", 0, "none")] := by
    simp [xmlRun, xmlFinish, xmlStep, xmlInit, e0, e4, int_toString_zero]
  refine ⟨h, ?_⟩
  rw [h]
  simp only [ne_eq, Except.ok.injEq, List.cons.injEq, Prod.mk.injEq]
  intro hcon
  exact absurd hcon.2.1.1 (by decide)

/-- A piece whose last resolved segment is a note: time signature
`n/d`, one measure, one untied note at offset `t0`. -/
def c4msgs (nm : String) (oc : ℤ) (t0 : ℚ) (n d : ℤ) : List XMsg :=
  [.timeSignature n d, .measureMark, .note nm oc none t0]

/-- **C4, amended.**  For a piece ending in a note, it is the *last
note's* Record that is padded to the next measure boundary: its
duration is `(n - ratMod t0 n)·d/4`, i.e. `next_measure_boundary -
final_position` in beats; the appended `end` token then carries one
whole further measure, duration `n·d/4`, starting at the boundary
(start_beat `1` when `d = 4`). -/
theorem c4_end_token_amended (nm : String) (oc : ℤ) (t0 : ℚ) (n d : ℤ)
    (hn : n ≠ 0) :
    xmlRun (c4msgs nm oc t0 n d) =
      .ok [("start", 1, t0 * ((d : ℚ) / 4), "rest", 0, "none"),
           ("1", ratMod (t0 * ((d : ℚ) / 4)) (n : ℚ) + 1,
             ((n : ℚ) - ratMod t0 (n : ℚ)) * ((d : ℚ) / 4), nm, oc, "none"),
           ("end",
             ratMod ((t0 + (n : ℚ) - ratMod t0 (n : ℚ)) * ((d : ℚ) / 4))
               (n : ℚ) + 1,
             (n : ℚ) * ((d : ℚ) / 4), "rest", 0, "none")] := by
  rw [xmlRun, c4msgs]
  simp only [List.foldl_cons, List.foldl_nil]
  simp only [xmlStep, xmlInit]
  simp [xmlFinish, hn, ratMod_zero_left, int_toString_one]
  ring_nf
  norm_num

/-- Witness for the amended C4: a note at offset 1 in a 4/4 measure;
the note is padded by 3 beats to the boundary and the end token spans
the next full measure. -/
theorem c4_end_token_amended_witness :
    xmlRun (c4msgs "C" 4 1 4 4) =
      .ok [("start", 1, 1, "rest", 0, "none"),
           ("1", 2, 3, "C", 4, "none"),
           ("end", 1, 4, "rest", 0, "none")] := by
  have h := c4_end_token_amended "C" 4 1 4 4 (by norm_num)
  rw [h]
  have e1 : ratMod 1 4 = 1 :=
    ratMod_eval 1 4 1 0 (by norm_num) (by norm_num) (by norm_num) (by norm_num)
  have e4 : ratMod 4 4 = 0 :=
    ratMod_eval 4 4 0 1 (by norm_num) (by norm_num) le_rfl (by norm_num)
  norm_num [e1, e4]

/-! ### C7: failure on a missing time signature -/

/-- Whether the stream contains a Note message (exactly the condition
under which the Python variable `time` gets assigned). -/
def hasNote (msgs : List XMsg) : Bool :=
  msgs.any fun m =>
    match m with
    | .note _ _ _ _ => true
    | _ => false

/-- The value of `time_num` when the loop finishes, starting from 0. -/
def finalNum (msgs : List XMsg) : ℤ :=
  msgs.foldl
    (fun a m =>
      match m with
      | .timeSignature nu _ => nu
      | _ => a) 0

theorem time_num_fold :
    ∀ (msgs : List XMsg) (s : XState),
      (List.foldl xmlStep s msgs).time_num =
        msgs.foldl
          (fun a m =>
            match m with
            | XMsg.timeSignature nu _ => nu
            | _ => a) s.time_num := by
  intro msgs
  induction msgs with
  | nil => intro s; rfl
  | cons m rest ih =>
    intro s
    simp only [List.foldl_cons]
    rw [ih]
    congr 1
    cases m with
    | note nm oc tie off =>
      cases tie with
      | none => simp [xmlStep]
      | some t => simp only [xmlStep]; split <;> rfl
    | rest off => simp only [xmlStep]; split <;> rfl
    | measureMark => rfl
    | timeSignature nu de => rfl
    | dynamic v => rfl

theorem time_isSome_fold :
    ∀ (msgs : List XMsg) (s : XState), s.time.isSome →
      (List.foldl xmlStep s msgs).time.isSome := by
  intro msgs
  induction msgs with
  | nil => intro s h; exact h
  | cons m rest ih =>
    intro s h
    simp only [List.foldl_cons]
    refine ih _ ?_
    cases m with
    | note nm oc tie off =>
      cases tie with
      | none => simp [xmlStep]
      | some t => simp only [xmlStep]; split <;> simp
    | rest off =>
      simp only [xmlStep]; split
      · exact h
      · simp
    | measureMark => exact h
    | timeSignature nu de => exact h
    | dynamic v => exact h

theorem time_isSome_of_hasNote :
    ∀ (msgs : List XMsg) (s : XState), hasNote msgs = true →
      (List.foldl xmlStep s msgs).time.isSome := by
  intro msgs
  induction msgs with
  | nil => intro s h; simp [hasNote] at h
  | cons m rest ih =>
    intro s h
    simp only [List.foldl_cons]
    cases m with
    | note nm oc tie off =>
      refine time_isSome_fold rest _ ?_
      cases tie with
      | none => simp [xmlStep]
      | some t => simp only [xmlStep]; split <;> simp
    | rest off =>
      refine ih _ ?_
      simpa [hasNote] using h
    | measureMark => exact ih _ (by simpa [hasNote] using h)
    | timeSignature nu de => exact ih _ (by simpa [hasNote] using h)
    | dynamic v => exact ih _ (by simpa [hasNote] using h)

/-- **C7, counterexample.**  The input processes its first (and only)
timed event while the time signature is still `0/0`, yet the pass does
not fail at all: the `time % time_num` division only runs *after* the
loop, by which point the trailing `TimeSignature` message has set
`time_num = 4`.  The pass succeeds and emits three Records. -/
theorem c7_counterexample :
    xmlRun [.note "C" 4 none 0, .timeSignature 4 4] =
      .ok [("start", 1, 0, "rest", 0, "none"),
           ("0", 1, 4, "C", 4, "none"),
           ("end", 1, 4, "rest", 0, "none")] ∧
    ∀ e : XErr, xmlRun [.note "C" 4 none 0, .timeSignature 4 4] ≠ .error e := by
  have e0 : ratMod 0 4 = 0 := ratMod_zero_left 4
  have e4 : ratMod 4 4 = 0 :=
    ratMod_eval 4 4 0 1 (by norm_num) (by norm_num) le_rfl (by norm_num)
  have h : xmlRun [.note "C" 4 none 0, .timeSignature 4 4] =
      .ok [("start", 1, 0, "rest", 0, "none"),
           ("0", 1, 4, "C", 4, "none"),
           ("end", 1, 4, "rest", 0, "none")] := by
    simp [xmlRun, xmlFinish, xmlStep, xmlInit, e0, e4, int_toString_zero]
  exact ⟨h, fun e => by rw [h]; simp⟩

/-- **C7, amended.**  The pass fails if and only if the configuration
is still missing when the *end-of-loop* padding is computed: for every
stream that contains at least one Note (so the Python `time` variable
is assigned) and whose final `time_num` is zero (no effective
`TimeSignature` message), the pass raises exactly the division-by-zero
error — the code's concrete form of the spec's `ConfigurationError` —
and emits nothing; no other error kind is possible there.  (A time
signature arriving *after* the first timed event still prevents the
failure, which is what breaks the claim as stated.) -/
theorem c7_missing_time_signature_amended (msgs : List XMsg)
    (h1 : hasNote msgs = true) (h2 : finalNum msgs = 0) :
    xmlRun msgs = .error .zeroDivisionError := by
  have hsome := time_isSome_of_hasNote msgs xmlInit h1
  have hnum : (List.foldl xmlStep xmlInit msgs).time_num = 0 := by
    rw [time_num_fold]
    exact h2
  obtain ⟨t, ht⟩ := Option.isSome_iff_exists.mp hsome
  rw [xmlRun, xmlFinish, ht, hnum]
  simp

/-- Witness for the amended C7: a single note and no time signature at
all ends in the division-by-zero failure. -/
theorem c7_missing_time_signature_amended_witness :
    xmlRun [.note "C" 4 none 0] = .error .zeroDivisionError :=
  c7_missing_time_signature_amended [.note "C" 4 none 0] (by decide) (by decide)

/-! ### C8: the dynamics mapper -/

theorem lookup_eq_none_of_forall_not_mem {v : ℤ} :
    ∀ {l : List (ℤ × String)}, (∀ w, (v, w) ∉ l) → l.lookup v = none := by
  intro l
  induction l with
  | nil => intro _; rfl
  | cons p rest ih =>
    intro h
    obtain ⟨k, w⟩ := p
    by_cases hk : v = k
    · subst hk
      exact absurd (List.mem_cons_self _ _) (h w)
    · rw [List.lookup_cons, beq_eq_false_iff_ne.mpr hk]
      exact ih fun w2 hw2 => h w2 (List.mem_cons_of_mem _ hw2)

/-- **C8.**  `vel2dyn` is a pure total function: an intensity that is
an exact key of the ordered table returns that key's label, and an
intensity with no exact key match returns the raw numeric value
unchanged (`Sum.inr v`) — never a nearest label, never an exception. -/
theorem c8_vel2dyn_exact_match (v : ℤ) :
    (∀ w, (v, w) ∈ dyn_dict → vel2dyn v = .inl w) ∧
    ((∀ w, (v, w) ∉ dyn_dict) → vel2dyn v = .inr v) := by
  constructor
  · intro w hmem
    fin_cases hmem <;> rfl
  · intro hnone
    rw [vel2dyn, lookup_eq_none_of_forall_not_mem hnone]

/-- Witness for C8: velocity 64 is a key and maps to `"mf"`; velocity
65 is not a key and comes back unchanged. -/
theorem c8_vel2dyn_exact_match_witness :
    ((64, "mf") ∈ dyn_dict ∧ vel2dyn 64 = .inl "mf") ∧
    ((∀ w, (65, w) ∉ dyn_dict) ∧ vel2dyn 65 = .inr 65) := by
  have h65 : ∀ w, ((65 : ℤ), w) ∉ dyn_dict := by
    intro w
    simp [dyn_dict]
  exact ⟨⟨by decide, (c8_vel2dyn_exact_match 64).1 "mf" (by decide)⟩,
    ⟨h65, (c8_vel2dyn_exact_match 65).2 h65⟩⟩

/-! ### C9: the rest-as-zero convention -/

/-- **C9** (code bug).  `midi2name 0 offset = 'R'` holds for every
transposition offset (the zero test precedes the offset), but the
reverse direction fails: `name_to_midi('rest', 0)` — the octave
stored alongside a rest row is 0 — returns `0 + (0 + 1) * 12 = 12`,
not 0, because the `b'rest': 0` table entry is still shifted by the
octave term.  The value 12 collides with pitch C0. -/
theorem c9_rest_roundtrip_bug :
    (∀ offset : ℤ, midi2name 0 offset = "R") ∧
    name_to_midi "rest" 0 = .ok 12 ∧ name_to_midi "rest" 0 ≠ .ok 0 := by
  refine ⟨fun offset => by simp [midi2name], by decide, by decide⟩

/-! ### C10: the emission guard of `midi_writer` -/

/-- Full characterization of a successful row emission: the etude
numerator is non-zero and the `dynamics` variable has been assigned.
Exactly one row is appended to each of the six output lists; `rhythm`
and `itr` honour the one-shot reset; `measure` becomes
`rhythm // upper + 1`. -/
theorem midiEmit_ok (cfg : MCfg) (s : MState) (note2 : ℤ) (beats : ℚ)
    (dv0 : String ⊕ ℤ) (hupper : s.upper ≠ 0) (hdyn : s.dynamics = some dv0) :
    midiEmit cfg s note2 beats =
      .ok { s with
        measure_list := s.measure_list ++ [s.measure],
        rhythm_list := s.rhythm_list ++ [s.rhythm],
        beats_list := s.beats_list ++ [beats],
        note_list := s.note_list ++ [midi2name note2 2],
        dynamics_list :=
          s.dynamics_list ++ [if note2 = 0 then .inl "NA" else dv0],
        tempo_list := s.tempo_list ++ [s.tempo],
        rhythm :=
          (if s.measure = cfg.etude.start ∧ s.itr ≠ cfg.en then
            (cfg.etude.down_beat : ℚ) - 1
          else s.rhythm) + beats,
        itr :=
          if s.measure = cfg.etude.start ∧ s.itr ≠ cfg.en then s.itr + 1
          else s.itr,
        measure :=
          ⌊((if s.measure = cfg.etude.start ∧ s.itr ≠ cfg.en then
              (cfg.etude.down_beat : ℚ) - 1
            else s.rhythm) + beats) / (s.upper : ℚ)⌋ + 1 } := by
  by_cases hc : s.measure = cfg.etude.start ∧ s.itr ≠ cfg.en <;>
    by_cases h0 : note2 = 0 <;>
      simp [midiEmit, hc, h0, hupper, hdyn]

/-- **C10.**  The `ticks > 0` emission guard is asymmetric: (i) a
`note_on` with positive velocity whose tick delta is at most 1 appends
no row to any output list — the whole effect is the `played`/`sign`
bookkeeping (`ticks = msg.time - 1 ≤ 0`); (ii) a `note_on` with
velocity 0 (a note end, `ticks = msg.time + 1 ≥ 1`), processed with a
matching `played` entry and non-zero `ticks_per_beat` and numerator,
always appends exactly one row to each of the six output lists. -/
theorem c10_midi_guard_asymmetry (cfg : MCfg) (s : MState)
    (note vel time : ℤ) :
    (0 < vel → time ≤ 1 →
      midiStep cfg s (.noteOn note vel time) =
        .ok { s with
          sign := if anyNonZero (s.played.map (·.2)) then 1 else 0,
          played := dictSet s.played note vel }) ∧
    (∀ v, 0 ≤ time → s.played.lookup note = some v →
      cfg.tpb ≠ 0 → s.upper ≠ 0 →
      ∃ s2, midiStep cfg s (.noteOn note 0 time) = .ok s2 ∧
        s2.measure_list.length = s.measure_list.length + 1 ∧
        s2.rhythm_list.length = s.rhythm_list.length + 1 ∧
        s2.beats_list.length = s.beats_list.length + 1 ∧
        s2.note_list.length = s.note_list.length + 1 ∧
        s2.dynamics_list.length = s.dynamics_list.length + 1 ∧
        s2.tempo_list.length = s.tempo_list.length + 1) := by
  constructor
  · intro hv ht
    have h1 : vel ≠ 0 := ne_of_gt hv
    have h2 : ¬(time - 1 > 0) := by omega
    simp [midiStep, midiNoteOn, h1, h2]
  · intro v ht hlook htpb hupper
    have h2 : time + 1 > 0 := by omega
    have h3 : cfg.tpb * 4 ≠ 0 := mul_ne_zero htpb (by norm_num)
    rw [midiStep, midiNoteOn]
    simp only [ne_eq, not_true_eq_false, if_false, hlook]
    rw [if_pos h2, if_neg h3]
    have hek := midiEmit_ok cfg
      { s with sign := 1, dynamics := some (vel2dyn v),
               played := dictSet s.played note 0 }
      (note * 1) ((((time + 1) * s.lower : ℤ) : ℚ) / ((cfg.tpb * 4 : ℤ) : ℚ))
      (vel2dyn v) hupper rfl
    rw [hek]
    refine ⟨_, rfl, ?_⟩
    simp

/-- Witness for C10: a one-tick note start appends nothing; a note
end with a held `played` entry appends one row everywhere. -/
theorem c10_midi_guard_asymmetry_witness :
    (midiStep ⟨480, 1, ⟨1, 43, 1⟩⟩ (midiInit ⟨1, 43, 1⟩)
        (.noteOn 60 64 1) =
      .ok { midiInit ⟨1, 43, 1⟩ with
        sign := 0, played := [(60, 64)] }) ∧
    (∃ s2,
      midiStep ⟨480, 1, ⟨1, 43, 1⟩⟩
          { midiInit ⟨1, 43, 1⟩ with
            played := [(60, 64)], upper := 4, lower := 4 }
          (.noteOn 60 0 479) =
        .ok s2 ∧ s2.measure_list.length = 1) := by
  constructor
  · have h := (c10_midi_guard_asymmetry ⟨480, 1, ⟨1, 43, 1⟩⟩
      (midiInit ⟨1, 43, 1⟩) 60 64 1).1 (by norm_num) (by norm_num)
    rw [h]
    simp [midiInit, dictSet, anyNonZero]
  · obtain ⟨s2, hs2, hlen, _⟩ := (c10_midi_guard_asymmetry ⟨480, 1, ⟨1, 43, 1⟩⟩
      { midiInit ⟨1, 43, 1⟩ with played := [(60, 64)], upper := 4, lower := 4 }
      60 0 479).2 64 (by norm_num) (by simp [List.lookup]) (by norm_num)
      (by simp [midiInit])
    exact ⟨s2, hs2, by simpa [midiInit] using hlen⟩

/-! ### C6: exact rational positions over 1000 measures

The synthetic input is in the tick layout the corpus files use, the
one the `±1` tick adjustment of lines 109/114 is built for: every note
starts one tick late (`Δt = 1` after the previous note end) and ends
one tick early (`Δt = 479`), so each quarter note at 480 ticks per
beat spans exactly 480 ticks and the adjusted `ticks` values are 0
(start, skipped) and 480 (end, one beat). -/

/-- The configuration midi_writer runs with for etude 1 at 480 tpb. -/
def c6cfg : MCfg := ⟨480, 1, ⟨1, 43, 1⟩⟩

/-- One quarter note: `note_on` (velocity 64) one tick after the
previous note end, `note_off` (velocity 0) 479 ticks later. -/
def c6pair : List MMsg := [.noteOn 60 64 1, .noteOn 60 0 479]

def c6pairs : ℕ → List MMsg
  | 0 => []
  | k + 1 => c6pair ++ c6pairs k

/-- A time signature message followed by `k` uniform quarter notes. -/
def c6stream (k : ℕ) : List MMsg := .timeSignature 4 4 :: c6pairs k

/-- The exact state after `k` quarter notes: `rhythm` is exactly `k`
beats, `measure` is `k / 4 + 1`, and each output list holds `k`
entries. -/
def c6state (k : ℕ) : MState :=
  { played := [(60, 0)], sign := 1, upper := 4, lower := 4,
    measure := ((k / 4 : ℕ) : ℤ) + 1, rhythm := (k : ℚ), tempo := 0, itr := 1,
    dynamics := some (.inl "mf"),
    measure_list := (List.range k).map (fun i => ((i / 4 : ℕ) : ℤ) + 1),
    rhythm_list := (List.range k).map (fun i => (i : ℚ)),
    beats_list := List.replicate k 1,
    note_list := List.replicate k "D4",
    dynamics_list := List.replicate k (.inl "mf"),
    tempo_list := List.replicate k 0 }

theorem c6floor (k : ℕ) :
    ⌊((k : ℚ) + 1) / ((4 : ℤ) : ℚ)⌋ = ((k + 1) / 4 : ℕ) := by
  have h := Rat.floor_intCast_div_natCast ((k : ℤ) + 1) 4
  have e1 : (((k : ℤ) + 1 : ℤ) : ℚ) = (k : ℚ) + 1 := by push_cast; ring
  rw [e1] at h
  rw [show ((4:ℕ) : ℚ) = ((4:ℤ) : ℚ) by norm_num] at h
  rw [h]
  omega

theorem midiFold_cons (cfg : MCfg) (s : MState) (msg : MMsg)
    (rest : List MMsg) :
    midiFold cfg s (msg :: rest) =
      match midiStep cfg s msg with
      | .error e => .error e
      | .ok s2 => midiFold cfg s2 rest := rfl

theorem midiFold_append (cfg : MCfg) :
    ∀ (l1 l2 : List MMsg) (s : MState),
      midiFold cfg s (l1 ++ l2) =
        match midiFold cfg s l1 with
        | .error e => .error e
        | .ok s2 => midiFold cfg s2 l2 := by
  intro l1
  induction l1 with
  | nil => intro l2 s; rfl
  | cons msg rest ih =>
    intro l2 s
    rw [List.cons_append, midiFold_cons, midiFold_cons]
    cases midiStep cfg s msg with
    | error e => rfl
    | ok s2 => exact ih l2 s2

theorem c6on (s : MState) (hp : s.played = [(60, 0)]) :
    midiStep c6cfg s (MMsg.noteOn 60 64 1) =
      .ok { s with sign := 0, played := [(60, 64)] } := by
  simp [midiStep, midiNoteOn, hp, dictSet, anyNonZero, List.lookup]

theorem c6off (s : MState) (hp : s.played = [(60, 64)]) (hu : s.upper = 4)
    (hl : s.lower = 4) (hi : s.itr = 1) :
    midiStep c6cfg s (MMsg.noteOn 60 0 479) =
      .ok { s with
        played := [(60, 0)], sign := 1, dynamics := some (vel2dyn 64),
        measure_list := s.measure_list ++ [s.measure],
        rhythm_list := s.rhythm_list ++ [s.rhythm],
        beats_list := s.beats_list ++ [1],
        note_list := s.note_list ++ ["D4"],
        dynamics_list := s.dynamics_list ++ [vel2dyn 64],
        tempo_list := s.tempo_list ++ [s.tempo],
        rhythm := s.rhythm + 1,
        measure := ⌊(s.rhythm + 1) / ((4 : ℤ) : ℚ)⌋ + 1 } := by
  rw [midiStep, midiNoteOn]
  simp only [ne_eq, not_true_eq_false, if_false, hp, List.lookup,
    beq_self_eq_true]
  rw [if_pos (by norm_num), if_neg (by norm_num [c6cfg])]
  rw [midiEmit_ok c6cfg _ _ _ (vel2dyn 64) (by simp [hu]) rfl]
  congr 1
  simp [c6cfg, hi, hl, hu]
  exact ⟨by decide, by decide⟩

/-- Each further quarter note advances the exact rational position by
exactly one beat. -/
theorem c6step (k : ℕ) :
    midiFold c6cfg (c6state k) c6pair = .ok (c6state (k + 1)) := by
  rw [show c6pair = MMsg.noteOn 60 64 1 :: [MMsg.noteOn 60 0 479] from rfl]
  rw [midiFold_cons, c6on (c6state k) (by simp [c6state])]
  dsimp only
  rw [midiFold_cons, c6off _ (by rfl) (by simp [c6state]) (by simp [c6state])
    (by simp [c6state])]
  dsimp only [midiFold, c6state]
  rw [c6floor k]
  congr 1
  have hv : vel2dyn 64 = Sum.inl "mf" := by decide
  simp [List.range_succ, List.replicate_succ', hv]

theorem c6fold :
    ∀ (m k : ℕ),
      midiFold c6cfg (c6state k) (c6pairs m) = .ok (c6state (k + m)) := by
  intro m
  induction m with
  | zero => intro k; rfl
  | succ m ih =>
    intro k
    rw [c6pairs, midiFold_append, c6step k]
    dsimp only
    rw [ih (k + 1)]
    congr 2
    omega

/-- The very first quarter note, processed from the initial state
(after the time-signature message): its one-shot `itr` reset fires and
it lands exactly in `c6state 1`. -/
theorem c6first :
    midiFold c6cfg { midiInit ⟨1, 43, 1⟩ with upper := 4, lower := 4 }
      c6pair = .ok (c6state 1) := by
  have hfl : (⌊(1 : ℚ) / ((4 : ℤ) : ℚ)⌋ : ℤ) = 0 := by
    rw [Int.floor_eq_iff]
    norm_num
  have hv : vel2dyn 64 = Sum.inl "mf" := by decide
  simp [midiFold, midiStep, midiNoteOn, midiEmit, midiInit, dictSet,
    anyNonZero, List.lookup, c6state, c6cfg, hv]
  norm_num [hfl]
  exact ⟨by decide, by decide⟩

theorem c6run (m : ℕ) :
    midiRun 1 480 (c6stream (m + 1)) = .ok (c6state (1 + m)) := by
  rw [show midiRun 1 480 (c6stream (m + 1)) =
      midiFold ⟨480, 1, ⟨1, 43, 1⟩⟩ (midiInit ⟨1, 43, 1⟩) (c6stream (m + 1))
    from rfl]
  rw [c6stream, midiFold_cons]
  rw [show midiStep ⟨480, 1, ⟨1, 43, 1⟩⟩ (midiInit ⟨1, 43, 1⟩)
        (MMsg.timeSignature 4 4) =
      .ok { midiInit ⟨1, 43, 1⟩ with upper := 4, lower := 4 } from rfl]
  dsimp only
  rw [c6pairs, midiFold_append]
  rw [show midiFold ⟨480, 1, ⟨1, 43, 1⟩⟩
        { midiInit ⟨1, 43, 1⟩ with upper := 4, lower := 4 } c6pair =
      .ok (c6state 1) from c6first]
  exact c6fold m 1

/-- **C6.**  Every tick-to-beat conversion of `midi_writer` is
`Fraction(ticks * lower, ticks_per_beat * 4)` and every position
update is `rhythm += beats` on exact rationals (embedded as `ℚ`,
because the source keeps them as `fractions.Fraction`).  For the
1000-measure 4/4 input of 4000 uniform quarter notes at 480 ticks per
beat (in the corpus tick layout the writer's `±1` adjustment targets),
the run succeeds and the cumulative position `rhythm` after all events
is *exactly* 4000 beats, by exact rational equality. -/
theorem c6_exact_rational_positions :
    midiRun 1 480 (c6stream 4000) = .ok (c6state 4000) ∧
    (c6state 4000).rhythm = 4000 := by
  constructor
  · have h := c6run 3999
    norm_num at h
    exact h
  · norm_num [c6state]

/-! ### C3: sentinel invariants -/

def xmlInv (s : XState) : Prop :=
  s.data.head? = some ("start", "rest", 0, "none") ∧
  s.duration.head? = some 0 ∧
  s.duration.length = s.data.length ∧
  (s.still_rest = true → s.time.isSome → 2 ≤ s.data.length)

theorem xmlInv_init : xmlInv xmlInit := by
  refine ⟨rfl, rfl, rfl, ?_⟩
  intro _ h
  simp [xmlInit] at h

theorem xmlInv_step (s : XState) (m : XMsg) (h : xmlInv s) :
    xmlInv (xmlStep s m) := by
  obtain ⟨h1, h2, h3, h4⟩ := h
  have hd1 : 1 ≤ s.data.length := by
    cases hdd : s.data with
    | nil => rw [hdd] at h1; simp at h1
    | cons a t => simp
  cases m with
  | note nm oc tie off =>
    cases tie with
    | none =>
      refine ⟨?_, ?_, ?_, ?_⟩ <;>
        simp [xmlStep, List.head?_append, h1, h2, h3]
    | some t =>
      by_cases ht : t = "start"
      · refine ⟨?_, ?_, ?_, ?_⟩ <;>
          simp [xmlStep, ht, List.head?_append, h1, h2, h3]
      · refine ⟨?_, ?_, ?_, ?_⟩ <;>
          simp [xmlStep, ht, List.head?_append, h1, h2, h3]
  | rest off =>
    by_cases hsr : s.still_rest
    · simpa [xmlStep, hsr] using ⟨h1, h2, h3, h4⟩
    · refine ⟨?_, ?_, ?_, ?_⟩ <;>
        simp [xmlStep, hsr, List.head?_append, h1, h2, h3]
      omega
  | measureMark =>
    exact ⟨h1, h2, h3, fun ha hb => h4 ha hb⟩
  | timeSignature nu de =>
    exact ⟨h1, h2, h3, fun ha hb => h4 ha hb⟩
  | dynamic v =>
    exact ⟨h1, h2, h3, fun ha hb => h4 ha hb⟩

theorem xmlInv_fold :
    ∀ (msgs : List XMsg) (s : XState), xmlInv s →
      xmlInv (List.foldl xmlStep s msgs) := by
  intro msgs
  induction msgs with
  | nil => intro s h; exact h
  | cons m rest ih =>
    intro s h
    exact ih _ (xmlInv_step s m h)

theorem mem_zipWith {α β γ : Type _} (f : α → β → γ) :
    ∀ (as : List α) (bs : List β) (x : γ), x ∈ List.zipWith f as bs →
      ∃ a b, a ∈ as ∧ b ∈ bs ∧ x = f a b := by
  intro as
  induction as with
  | nil => intro bs x hx; simp at hx
  | cons a as' ih =>
    intro bs x hx
    cases bs with
    | nil => simp at hx
    | cons b bs' =>
      rw [List.zipWith_cons_cons] at hx
      rcases List.mem_cons.mp hx with hx | hx
      · exact ⟨a, b, List.mem_cons_self _ _, List.mem_cons_self _ _, hx⟩
      · obtain ⟨a2, b2, ha, hb, he⟩ := ih bs' x hx
        exact ⟨a2, b2, List.mem_cons_of_mem _ ha, List.mem_cons_of_mem _ hb, he⟩

theorem zipWith_head? {α β γ : Type _} (f : α → β → γ) (as : List α)
    (bs : List β) :
    (List.zipWith f as bs).head? =
      match as.head?, bs.head? with
      | some a, some b => some (f a b)
      | _, _ => none := by
  cases as <;> cases bs <;> rfl

theorem zipWith_getLast? {α β γ : Type _} (f : α → β → γ) :
    ∀ (as : List α) (bs : List β), as.length = bs.length →
      (List.zipWith f as bs).getLast? =
        match as.getLast?, bs.getLast? with
        | some a, some b => some (f a b)
        | _, _ => none := by
  intro as
  induction as with
  | nil =>
    intro bs h
    cases bs with
    | nil => rfl
    | cons b bs' => simp at h
  | cons a as' ih =>
    intro bs h
    cases bs with
    | nil => simp at h
    | cons b bs' =>
      rw [List.zipWith_cons_cons]
      cases as' with
      | nil =>
        cases bs' with
        | nil => rfl
        | cons b2 u2 => simp at h
      | cons a2 t2 =>
        cases bs' with
        | nil => simp at h
        | cons b2 u2 =>
          have hih := ih (b2 :: u2) (by simpa using h)
          rw [List.zipWith_cons_cons] at hih
          rw [List.zipWith_cons_cons, List.getLast?_cons_cons,
            show (b :: b2 :: u2).getLast? = (b2 :: u2).getLast? from
              List.getLast?_cons_cons]
          exact hih

theorem head?_dropLast_of_two_le {α : Type _} (l : List α) (a : α)
    (h : l.head? = some a) (h2 : 2 ≤ l.length) : l.dropLast.head? = some a := by
  cases l with
  | nil => simp at h
  | cons x t =>
    cases t with
    | nil => simp at h2
    | cons y u =>
      simp only [List.head?_cons, Option.some.injEq] at h
      subst h
      rfl


theorem rows_head_helper (dat2 : List XRow) (scl : List ℚ) (nQ : ℚ)
    (hd : dat2.head? = some ("start", "rest", 0, "none"))
    (hs : scl.head? = some 0) (htl : scl.tail ≠ []) :
    ∃ d, (List.zipWith (fun (r : XRow) (p : ℚ × ℚ) =>
        (r.1, ratMod p.1 nQ + 1, p.2 - p.1, r.2.1, r.2.2.1, r.2.2.2))
      dat2 (scl.zip scl.tail)).head? =
      some ("start", 1, d, "rest", 0, "none") := by
  cases dat2 with
  | nil => simp at hd
  | cons a dt =>
    cases scl with
    | nil => simp at hs
    | cons s0 stl =>
      cases stl with
      | nil => simp at htl
      | cons q qtl =>
        simp only [List.head?_cons, Option.some.injEq] at hd hs
        subst hd
        subst hs
        refine ⟨q - 0, ?_⟩
        simp [List.zip, ratMod_zero_left]

theorem rows_last_helper (dat2 : List XRow) (scl : List ℚ) (nQ : ℚ)
    (hlen : dat2.length + 1 = scl.length)
    (hd : dat2.getLast? = some ("end", "rest", 0, "none"))
    (hne : dat2 ≠ []) :
    ∃ b d, (List.zipWith (fun (r : XRow) (p : ℚ × ℚ) =>
        (r.1, ratMod p.1 nQ + 1, p.2 - p.1, r.2.1, r.2.2.1, r.2.2.2))
      dat2 (scl.zip scl.tail)).getLast? =
      some ("end", b, d, "rest", 0, "none") := by
  have hlz : dat2.length = (scl.zip scl.tail).length := by
    rw [List.length_zip, List.length_tail]
    omega
  have hpne : scl.zip scl.tail ≠ [] := by
    intro he
    have := congrArg List.length he
    rw [← hlz] at this
    simp at this
    exact hne this
  obtain ⟨p, hp⟩ := Option.isSome_iff_exists.mp
    (List.getLast?_isSome.mpr hpne)
  rw [zipWith_getLast? _ _ _ hlz, hd, hp]
  exact ⟨ratMod p.1 nQ + 1, p.2 - p.1, rfl⟩

theorem finish_rows_props (dat2 : List XRow) (scl : List ℚ) (nQ : ℚ)
    (hnQ : 0 < nQ)
    (hd : dat2.head? = some ("start", "rest", 0, "none"))
    (hdl : dat2.getLast? = some ("end", "rest", 0, "none"))
    (hs : scl.head? = some 0)
    (hlen : dat2.length + 1 = scl.length) :
    (∃ d, (List.zipWith (fun (r : XRow) (p : ℚ × ℚ) =>
        (r.1, ratMod p.1 nQ + 1, p.2 - p.1, r.2.1, r.2.2.1, r.2.2.2))
      dat2 (scl.zip scl.tail)).head? =
      some ("start", 1, d, "rest", 0, "none")) ∧
    (∃ b d, (List.zipWith (fun (r : XRow) (p : ℚ × ℚ) =>
        (r.1, ratMod p.1 nQ + 1, p.2 - p.1, r.2.1, r.2.2.1, r.2.2.2))
      dat2 (scl.zip scl.tail)).getLast? =
      some ("end", b, d, "rest", 0, "none")) ∧
    (∀ r ∈ (List.zipWith (fun (r : XRow) (p : ℚ × ℚ) =>
        (r.1, ratMod p.1 nQ + 1, p.2 - p.1, r.2.1, r.2.2.1, r.2.2.2))
      dat2 (scl.zip scl.tail)), 1 ≤ r.2.1) := by
  have hdne : dat2 ≠ [] := by
    intro he
    rw [he] at hd
    simp at hd
  have htl : scl.tail ≠ [] := by
    intro he
    have h1 := congrArg List.length he
    rw [List.length_tail] at h1
    simp at h1
    have h2 : 1 ≤ dat2.length := List.length_pos.mpr hdne
    omega
  refine ⟨rows_head_helper dat2 scl nQ hd hs htl,
    rows_last_helper dat2 scl nQ hlen hdl hdne, ?_⟩
  intro r hr
  obtain ⟨a, p, _, _, he⟩ := mem_zipWith _ _ _ r hr
  rw [he]
  have := ratMod_nonneg p.1 nQ hnQ
  simp only []
  linarith

/-- **C3, counterexample.**  On the input `[TimeSignature 4/4, Note
C4 at offset 2]` the first emitted Record is the `start` token with
duration 2, not 0 (the token's duration is the offset of the first
content record), and the note Record carries measure number 0 (the
`measure` counter starts at 0 and no Measure message was seen) — both
contradicting the claim. -/
theorem c3_counterexample :
    xmlRun [.timeSignature 4 4, .note "C" 4 none 2] =
      .ok [("start", 1, 2, "rest", 0, "none"),
           ("0", 3, 2, "C", 4, "none"),
           ("end", 1, 4, "rest", 0, "none")] ∧
    (∀ r : Row,
      [(("start" : String), (1 : ℚ), (2 : ℚ), ("rest" : String), (0 : ℤ),
        ("none" : String)),
       ("0", 3, 2, "C", 4, "none"),
       ("end", 1, 4, "rest", 0, "none")].head? = some r → r.2.2.1 ≠ 0) ∧
    (("0", (3 : ℚ), (2 : ℚ), ("C" : String), (4 : ℤ), ("none" : String)) ∈
      [(("start" : String), (1 : ℚ), (2 : ℚ), ("rest" : String), (0 : ℤ),
        ("none" : String)),
       ("0", 3, 2, "C", 4, "none"),
       ("end", 1, 4, "rest", 0, "none")]) := by
  have e0 : ratMod 0 4 = 0 := ratMod_zero_left 4
  have e2 : ratMod 2 4 = 2 :=
    ratMod_eval 2 4 2 0 (by norm_num) (by norm_num) (by norm_num) (by norm_num)
  have e4 : ratMod 4 4 = 0 :=
    ratMod_eval 4 4 0 1 (by norm_num) (by norm_num) le_rfl (by norm_num)
  refine ⟨?_, ?_, ?_⟩
  · simp [xmlRun, xmlFinish, xmlStep, xmlInit, e0, e2, e4, int_toString_zero]
    norm_num
  · intro r hr
    simp only [List.head?_cons, Option.some.injEq] at hr
    subst hr
    norm_num
  · simp

/-- **C3, amended.**  For every stream that contains at least one Note
(else the pass dies with `NameError`) and establishes a positive
time-signature numerator (else `ZeroDivisionError`), the pass
succeeds; the first Record is always the `start` token with
`start_beat = 1` (its duration is the scaled offset of the first
content record, 0 only when content starts at offset 0); the last
Record is always the `end` token; and every Record's `start_beat` is
at least 1 — in particular never negative.  Content records carry the
running Measure count, which is 0 (not ≥ 1) before the first Measure
message. -/
theorem c3_sentinel_invariants_amended (msgs : List XMsg)
    (hn : hasNote msgs = true) (hp : 0 < finalNum msgs) :
    ∃ rows, xmlRun msgs = .ok rows ∧
      (∃ d, rows.head? = some ("start", 1, d, "rest", 0, "none")) ∧
      (∃ b d, rows.getLast? = some ("end", b, d, "rest", 0, "none")) ∧
      (∀ r ∈ rows, 1 ≤ r.2.1) := by
  have hinv := xmlInv_fold msgs xmlInit xmlInv_init
  have hsome := time_isSome_of_hasNote msgs xmlInit hn
  set st := List.foldl xmlStep xmlInit msgs with hst
  obtain ⟨h1, h2, h3, h4⟩ := hinv
  obtain ⟨t, ht⟩ := Option.isSome_iff_exists.mp hsome
  have hnum : st.time_num = finalNum msgs := time_num_fold msgs xmlInit
  have hpos : (0 : ℤ) < st.time_num := by rw [hnum]; exact hp
  have hne : st.time_num ≠ 0 := ne_of_gt hpos
  have hnQ : (0 : ℚ) < (st.time_num : ℚ) := by exact_mod_cast hpos
  have hdne : st.data ≠ [] := by
    intro he
    rw [he] at h1
    simp at h1
  have hd1 : 1 ≤ st.data.length := List.length_pos.mpr hdne
  have hune : st.duration ≠ [] := by
    intro he
    rw [he] at h2
    simp at h2
  have hu1 : 1 ≤ st.duration.length := List.length_pos.mpr hune
  rw [xmlRun, ← hst, xmlFinish, ht]
  dsimp only
  rw [if_neg hne]
  refine ⟨_, rfl, finish_rows_props _ _ _ hnQ ?_ ?_ ?_ ?_⟩
  · -- head of the data rows is the start token
    by_cases hsr : st.still_rest = true
    · have h24 := h4 hsr (by rw [ht]; rfl)
      rw [if_pos hsr, List.head?_append,
        head?_dropLast_of_two_le st.data _ h1 h24]
      rfl
    · rw [if_neg hsr, List.head?_append, h1]
      rfl
  · -- last data row is the end token
    exact List.getLast?_concat _
  · -- the scaled offsets start at 0
    rw [List.head?_map]
    by_cases hsr : st.still_rest = true
    · rw [if_pos hsr, List.head?_append, h2]
      simp
    · rw [if_neg hsr, List.head?_append, List.head?_append, h2]
      simp
  · -- the scaled list has one more entry than the data rows
    rw [List.length_map]
    by_cases hsr : st.still_rest = true
    · have h24 := h4 hsr (by rw [ht]; rfl)
      rw [if_pos hsr, if_pos hsr]
      simp only [List.length_append, List.length_dropLast,
        List.length_cons, List.length_nil, h3]
      omega
    · rw [if_neg hsr, if_neg hsr]
      simp only [List.length_append, List.length_cons, List.length_nil, h3]


/-- Witness for the amended C3 at a concrete input. -/
theorem c3_sentinel_invariants_amended_witness :
    ∃ rows, xmlRun [.timeSignature 4 4, .note "C" 4 none 2] = .ok rows ∧
      (∃ d, rows.head? = some ("start", 1, d, "rest", 0, "none")) ∧
      (∃ b d, rows.getLast? = some ("end", b, d, "rest", 0, "none")) ∧
      (∀ r ∈ rows, 1 ≤ r.2.1) :=
  c3_sentinel_invariants_amended [.timeSignature 4 4, .note "C" 4 none 2]
    (by decide) (by decide)



def sumDur (segs : List (String × ℤ × ℚ)) : ℚ :=
  (segs.map (fun sg => sg.2.2)).sum

def segsMsgs : List (String × ℤ × ℚ) → ℚ → List XMsg
  | [], _ => []
  | sg :: rest, off => .note sg.1 sg.2.1 none off :: segsMsgs rest (off + sg.2.2)

def measuresMsgs : List (List (String × ℤ × ℚ)) → ℚ → List XMsg
  | [], _ => []
  | segs :: rest, off =>
    .measureMark :: (segsMsgs segs off ++ measuresMsgs rest (off + sumDur segs))

def c5msgs (n : ℤ) (ms : List (List (String × ℤ × ℚ))) : List XMsg :=
  .timeSignature n 4 :: measuresMsgs ms 0

def segsOffs : List (String × ℤ × ℚ) → ℚ → List ℚ
  | [], _ => []
  | sg :: rest, off => off :: segsOffs rest (off + sg.2.2)

def msOffs : List (List (String × ℤ × ℚ)) → ℚ → List ℚ
  | [], _ => []
  | segs :: rest, off => segsOffs segs off ++ msOffs rest (off + sumDur segs)

def segsLast : List (String × ℤ × ℚ) → ℚ → ℚ
  | [], off => off
  | sg :: rest, off =>
    match rest with
    | [] => off
    | _ :: _ => segsLast rest (off + sg.2.2)

def msLast : List (List (String × ℤ × ℚ)) → ℚ → ℚ
  | [], off => off
  | segs :: rest, off =>
    match rest with
    | [] => segsLast segs off
    | _ :: _ => msLast rest (off + sumDur segs)

def segRows (j : ℤ) (dyn : String) (segs : List (String × ℤ × ℚ)) :
    List XRow :=
  segs.map (fun sg => (toString j, sg.1, sg.2.1, dyn))

def msRows (j : ℤ) (dyn : String) : List (List (String × ℤ × ℚ)) → List XRow
  | [] => []
  | segs :: rest => segRows (j + 1) dyn segs ++ msRows (j + 1) dyn rest

def segContent (j : ℤ) (rel : ℚ) : List (String × ℤ × ℚ) → List Row
  | [] => []
  | sg :: rest =>
    (toString j, rel + 1, sg.2.2, sg.1, sg.2.1, "none") ::
      segContent j (rel + sg.2.2) rest

def msContent (j : ℤ) : List (List (String × ℤ × ℚ)) → List Row
  | [] => []
  | segs :: rest => segContent (j + 1) 0 segs ++ msContent (j + 1) rest

def c5rows (n : ℤ) (ms : List (List (String × ℤ × ℚ))) : List Row :=
  ("start", 1, 0, "rest", 0, "none") ::
    (msContent 0 ms ++ [("end", 1, (n : ℚ), "rest", 0, "none")])

theorem segsFoldSpec :
    ∀ (segs : List (String × ℤ × ℚ)) (off : ℚ) (s : XState),
      ((List.foldl xmlStep s (segsMsgs segs off)).data =
          s.data ++ segRows s.measure s.dynamic segs) ∧
      ((List.foldl xmlStep s (segsMsgs segs off)).duration =
          s.duration ++ segsOffs segs off) ∧
      ((List.foldl xmlStep s (segsMsgs segs off)).measure = s.measure) ∧
      ((List.foldl xmlStep s (segsMsgs segs off)).time_num = s.time_num) ∧
      ((List.foldl xmlStep s (segsMsgs segs off)).time_denom = s.time_denom) ∧
      ((List.foldl xmlStep s (segsMsgs segs off)).dynamic = s.dynamic) ∧
      ((List.foldl xmlStep s (segsMsgs segs off)).still_rest =
          if segs.isEmpty then s.still_rest else false) ∧
      ((List.foldl xmlStep s (segsMsgs segs off)).time =
          if segs.isEmpty then s.time else some (segsLast segs off)) := by
  intro segs
  induction segs with
  | nil =>
    intro off s
    simp [segsMsgs, segRows, segsOffs]
  | cons sg rest ih =>
    intro off s
    obtain ⟨i1, i2, i3, i4, i5, i6, i7, i8⟩ := ih (off + sg.2.2)
      (xmlStep s (.note sg.1 sg.2.1 none off))
    rw [segsMsgs, List.foldl_cons]
    refine ⟨?_, ?_, ?_, ?_, ?_, ?_, ?_, ?_⟩
    · rw [i1]
      simp [xmlStep, segRows]
    · rw [i2]
      simp [xmlStep, segsOffs]
    · rw [i3]; simp [xmlStep]
    · rw [i4]; simp [xmlStep]
    · rw [i5]; simp [xmlStep]
    · rw [i6]; simp [xmlStep]
    · rw [i7]
      cases rest with
      | nil => simp [xmlStep]
      | cons r2 rr => simp [xmlStep]
    · rw [i8]
      cases rest with
      | nil => simp [xmlStep, segsLast]
      | cons r2 rr => simp [xmlStep, segsLast]


theorem msFoldSpec :
    ∀ (ms : List (List (String × ℤ × ℚ))) (off : ℚ) (s : XState),
      (∀ segs ∈ ms, segs ≠ []) →
      ((List.foldl xmlStep s (measuresMsgs ms off)).data =
          s.data ++ msRows s.measure s.dynamic ms) ∧
      ((List.foldl xmlStep s (measuresMsgs ms off)).duration =
          s.duration ++ msOffs ms off) ∧
      ((List.foldl xmlStep s (measuresMsgs ms off)).measure =
          s.measure + ms.length) ∧
      ((List.foldl xmlStep s (measuresMsgs ms off)).time_num = s.time_num) ∧
      ((List.foldl xmlStep s (measuresMsgs ms off)).time_denom =
          s.time_denom) ∧
      ((List.foldl xmlStep s (measuresMsgs ms off)).dynamic = s.dynamic) ∧
      ((List.foldl xmlStep s (measuresMsgs ms off)).still_rest =
          if ms.isEmpty then s.still_rest else false) ∧
      ((List.foldl xmlStep s (measuresMsgs ms off)).time =
          if ms.isEmpty then s.time else some (msLast ms off)) := by
  intro ms
  induction ms with
  | nil =>
    intro off s _
    simp [measuresMsgs, msRows, msOffs]
  | cons segs rest ih =>
    intro off s hne
    have hsegs : segs ≠ [] := hne segs (List.mem_cons_self _ _)
    have hrest : ∀ sg ∈ rest, sg ≠ [] :=
      fun sg hsg => hne sg (List.mem_cons_of_mem _ hsg)
    rw [measuresMsgs, List.foldl_cons, List.foldl_append]
    set s1 := xmlStep s XMsg.measureMark with hs1
    obtain ⟨a1, a2, a3, a4, a5, a6, a7, a8⟩ := segsFoldSpec segs off s1
    set s2 := List.foldl xmlStep s1 (segsMsgs segs off) with hs2
    obtain ⟨b1, b2, b3, b4, b5, b6, b7, b8⟩ :=
      ih (off + sumDur segs) s2 hrest
    have hm1 : s1.measure = s.measure + 1 := by simp [hs1, xmlStep]
    have hsegsne : segs.isEmpty = false := by
      cases segs with
      | nil => exact absurd rfl hsegs
      | cons a b => rfl
    refine ⟨?_, ?_, ?_, ?_, ?_, ?_, ?_, ?_⟩
    · rw [b1, a1, a3, a6, hm1]
      have : s1.data = s.data := by simp [hs1, xmlStep]
      rw [this, List.append_assoc]
      have hdyn : s1.dynamic = s.dynamic := by simp [hs1, xmlStep]
      rw [hdyn, msRows]
    · rw [b2, a2]
      have : s1.duration = s.duration := by simp [hs1, xmlStep]
      rw [this, List.append_assoc, msOffs]
    · rw [b3, a3, hm1]
      simp [List.length_cons]
      ring
    · rw [b4, a4]
      simp [hs1, xmlStep]
    · rw [b5, a5]
      simp [hs1, xmlStep]
    · rw [b6, a6]
      simp [hs1, xmlStep]
    · rw [b7, a7, hsegsne]
      cases rest with
      | nil => simp
      | cons r2 rr => simp
    · rw [b8]
      cases rest with
      | nil =>
        simp only [List.isEmpty_nil, if_true, List.isEmpty_cons]
        rw [a8, hsegsne]
        simp [msLast]
      | cons r2 rr =>
        simp [msLast]


theorem segsLast_spec :
    ∀ (segs : List (String × ℤ × ℚ)) (off : ℚ), segs ≠ [] →
      (∀ sg ∈ segs, 0 < sg.2.2) →
      ∃ rel dl, segsLast segs off = off + rel ∧ 0 ≤ rel ∧ 0 < dl ∧
        rel + dl = sumDur segs := by
  intro segs
  induction segs with
  | nil => intro off h _; exact absurd rfl h
  | cons sg rest ih =>
    intro off _ hpos
    cases rest with
    | nil =>
      refine ⟨0, sg.2.2, ?_, le_rfl, hpos sg (List.mem_cons_self _ _), ?_⟩
      · simp [segsLast]
      · simp [sumDur]
    | cons r2 rr =>
      obtain ⟨rel, dl, h1, h2, h3, h4⟩ := ih (off + sg.2.2)
        (List.cons_ne_nil _ _)
        (fun x hx => hpos x (List.mem_cons_of_mem _ hx))
      refine ⟨sg.2.2 + rel, dl, ?_, ?_, h3, ?_⟩
      · show segsLast (r2 :: rr) (off + sg.2.2) = _
        rw [h1]
        ring
      · have := hpos sg (List.mem_cons_self _ _)
        linarith
      · rw [sumDur] at h4 ⊢
        simp only [List.map_cons, List.sum_cons] at h4 ⊢
        linarith

theorem msLast_spec (n : ℚ) :
    ∀ (rest : List (List (String × ℤ × ℚ)))
      (segs : List (String × ℤ × ℚ)) (off : ℚ),
      (∀ sgs ∈ segs :: rest, sgs ≠ []) →
      (∀ sgs ∈ segs :: rest, sumDur sgs = n) →
      (∀ sgs ∈ segs :: rest, ∀ sg ∈ sgs, 0 < sg.2.2) →
      ∃ rel dl, msLast (segs :: rest) off = off + n * rest.length + rel ∧
        0 ≤ rel ∧ 0 < dl ∧ rel + dl = n := by
  intro rest
  induction rest with
  | nil =>
    intro segs off hne hsum hpos
    obtain ⟨rel, dl, h1, h2, h3, h4⟩ := segsLast_spec segs off
      (hne segs (List.mem_cons_self _ _))
      (hpos segs (List.mem_cons_self _ _))
    refine ⟨rel, dl, ?_, h2, h3, ?_⟩
    · show segsLast segs off = _
      rw [h1]
      simp
    · rw [h4]
      exact hsum segs (List.mem_cons_self _ _)
  | cons m2 mrest ih =>
    intro segs off hne hsum hpos
    obtain ⟨rel, dl, h1, h2, h3, h4⟩ := ih m2 (off + sumDur segs)
      (fun x hx => hne x (List.mem_cons_of_mem _ hx))
      (fun x hx => hsum x (List.mem_cons_of_mem _ hx))
      (fun x hx => hpos x (List.mem_cons_of_mem _ hx))
    refine ⟨rel, dl, ?_, h2, h3, h4⟩
    show msLast (m2 :: mrest) (off + sumDur segs) = _
    rw [h1, hsum segs (List.mem_cons_self _ _)]
    simp only [List.length_cons]
    push_cast
    ring

theorem msOffs_head (segs : List (String × ℤ × ℚ))
    (rest : List (List (String × ℤ × ℚ))) (off : ℚ) (h : segs ≠ []) :
    (msOffs (segs :: rest) off).head? = some off := by
  cases segs with
  | nil => exact absurd rfl h
  | cons sg sr => rfl

def pairsOf (l : List ℚ) : List (ℚ × ℚ) := l.zip l.tail

def mkRow (nQ : ℚ) (r : XRow) (p : ℚ × ℚ) : Row :=
  (r.1, ratMod p.1 nQ + 1, p.2 - p.1, r.2.1, r.2.2.1, r.2.2.2)


theorem pairsOf_cons_cons (a b : ℚ) (l : List ℚ) :
    pairsOf (a :: b :: l) = (a, b) :: pairsOf (b :: l) := rfl

theorem zipSegs (n : ℚ) (hn : 0 < n) :
    ∀ (segs : List (String × ℤ × ℚ)) (j : ℤ) (k : ℤ) (rel : ℚ)
      (restRows : List XRow) (restOffs : List ℚ),
      0 ≤ rel → rel + sumDur segs ≤ n → (∀ sg ∈ segs, 0 < sg.2.2) →
      restOffs.head? = some (n * k + rel + sumDur segs) →
      List.zipWith (mkRow n) (segRows j "none" segs ++ restRows)
        (pairsOf (segsOffs segs (n * k + rel) ++ restOffs)) =
      segContent j rel segs ++
        List.zipWith (mkRow n) restRows (pairsOf restOffs) := by
  intro segs
  induction segs with
  | nil =>
    intro j k rel restRows restOffs _ _ _ _
    simp [segRows, segsOffs, segContent]
  | cons sg rest ih =>
    intro j k rel restRows restOffs hrel hbound hpos hhead
    have hd : 0 < sg.2.2 := hpos sg (List.mem_cons_self _ _)
    have hsum_cons : sumDur (sg :: rest) = sg.2.2 + sumDur rest := by
      simp [sumDur]
    have hrmod : ratMod (n * k + rel) n = rel := by
      refine ratMod_eval _ _ rel k hn (by ring) hrel ?_
      have h0 : 0 ≤ sumDur rest := by
        have : ∀ q ∈ rest.map (fun sg => sg.2.2), 0 ≤ q := by
          intro q hq
          obtain ⟨x, hx, rfl⟩ := List.mem_map.mp hq
          exact le_of_lt (hpos x (List.mem_cons_of_mem _ hx))
        exact List.sum_nonneg this
      rw [hsum_cons] at hbound
      linarith
    cases rest with
    | nil =>
      obtain ⟨rtl, hrtl⟩ : ∃ rtl, restOffs = (n * k + rel + sumDur [sg]) :: rtl := by
        cases restOffs with
        | nil => simp at hhead
        | cons a tl =>
          simp only [List.head?_cons, Option.some.injEq] at hhead
          exact ⟨tl, by rw [hhead]⟩
      rw [hrtl]
      simp only [segRows, List.map_cons, List.map_nil, segsOffs, List.nil_append,
        List.cons_append, segContent, pairsOf_cons_cons]
      rw [List.zipWith_cons_cons]
      congr 1
      rw [mkRow]
      simp only [hrmod]
      rw [show sumDur [sg] = sg.2.2 by simp [sumDur]]
      norm_num
    | cons r2 rr =>
      have ihh := ih j k (rel + sg.2.2) restRows restOffs
        (by linarith) (by rw [hsum_cons] at hbound; linarith)
        (fun x hx => hpos x (List.mem_cons_of_mem _ hx))
        (by rw [hhead]; congr 1; rw [hsum_cons]; ring)
      rw [show n * (k : ℚ) + (rel + sg.2.2) = n * k + rel + sg.2.2 by ring] at ihh
      have e1 : segRows j "none" (sg :: r2 :: rr) ++ restRows =
          (toString j, sg.1, sg.2.1, "none") ::
            (segRows j "none" (r2 :: rr) ++ restRows) := rfl
      have e2 : segsOffs (sg :: r2 :: rr) (n * (k : ℚ) + rel) ++ restOffs =
          (n * (k : ℚ) + rel) ::
            (segsOffs (r2 :: rr) (n * (k : ℚ) + rel + sg.2.2) ++ restOffs) := rfl
      have e3 : segsOffs (r2 :: rr) (n * (k : ℚ) + rel + sg.2.2) ++ restOffs =
          (n * (k : ℚ) + rel + sg.2.2) ::
            (segsOffs rr (n * (k : ℚ) + rel + sg.2.2 + r2.2.2) ++ restOffs) := rfl
      have e4 : segContent j rel (sg :: r2 :: rr) =
          (toString j, rel + 1, sg.2.2, sg.1, sg.2.1, "none") ::
            segContent j (rel + sg.2.2) (r2 :: rr) := rfl
      rw [e1, e2, e3, pairsOf_cons_cons, List.zipWith_cons_cons, ← e3, ihh,
        e4, List.cons_append]
      congr 1
      rw [mkRow]
      simp only [hrmod]
      norm_num


theorem zipMs (n : ℚ) (hn : 0 < n) :
    ∀ (ms : List (List (String × ℤ × ℚ))) (j : ℤ) (k : ℤ),
      (∀ segs ∈ ms, segs ≠ []) → (∀ segs ∈ ms, sumDur segs = n) →
      (∀ segs ∈ ms, ∀ sg ∈ segs, 0 < sg.2.2) →
      List.zipWith (mkRow n)
        (msRows j "none" ms ++ [("end", "rest", 0, "none")])
        (pairsOf (msOffs ms (n * k) ++
          [n * (k + ms.length), n * (k + ms.length) + n])) =
      msContent j ms ++ [("end", 1, n, "rest", 0, "none")] := by
  intro ms
  induction ms with
  | nil =>
    intro j k _ _ _
    have hrmod : ratMod (n * (k : ℚ)) n = 0 := by
      refine ratMod_eval _ _ 0 k hn (by ring) le_rfl hn
    simp only [msRows, msOffs, List.nil_append, List.length_nil,
      Nat.cast_zero, add_zero, msContent]
    rw [show pairsOf [n * (k : ℚ), n * (k : ℚ) + n] =
        [(n * (k : ℚ), n * (k : ℚ) + n)] from rfl]
    rw [show List.zipWith (mkRow n) [(("end" : String), ("rest" : String),
        (0 : ℤ), ("none" : String))] [(n * (k : ℚ), n * (k : ℚ) + n)] =
      [mkRow n ("end", "rest", 0, "none") (n * (k : ℚ), n * (k : ℚ) + n)]
      from rfl]
    rw [mkRow]
    simp only [hrmod]
    norm_num
  | cons segs rest ih =>
    intro j k hne hsum hpos
    have hsegs : segs ≠ [] := hne segs (List.mem_cons_self _ _)
    have hsegsum : sumDur segs = n := hsum segs (List.mem_cons_self _ _)
    have hT : n * ((k : ℚ) + (segs :: rest).length) =
        n * (((k + 1 : ℤ) : ℚ) + rest.length) := by
      simp only [List.length_cons]
      push_cast
      ring
    have hhead : (msOffs rest (n * ((k + 1 : ℤ) : ℚ)) ++
        [n * (((k + 1 : ℤ) : ℚ) + rest.length),
         n * (((k + 1 : ℤ) : ℚ) + rest.length) + n]).head? =
        some (n * (k : ℚ) + 0 + sumDur segs) := by
      cases rest with
      | nil =>
        simp only [msOffs, List.nil_append, List.head?_cons,
          List.length_nil, Nat.cast_zero, add_zero]
        congr 1
        rw [hsegsum]
        push_cast
        ring
      | cons m2 mrest =>
        rw [List.head?_append,
          msOffs_head m2 mrest _ (hne m2 (by simp))]
        simp only [Option.or_some]
        congr 1
        rw [hsegsum]
        push_cast
        ring
    have hmsoffs : msOffs (segs :: rest) (n * (k : ℚ)) =
        segsOffs segs (n * (k : ℚ) + 0) ++
          msOffs rest (n * ((k + 1 : ℤ) : ℚ)) := by
      rw [msOffs, hsegsum]
      congr 1
      · rw [add_zero]
      · congr 1
        push_cast
        ring
    rw [msRows, hmsoffs, List.append_assoc, List.append_assoc, hT]
    rw [zipSegs n hn segs (j + 1) k 0 _ _ le_rfl
      (by rw [zero_add, hsegsum]) (hpos segs (List.mem_cons_self _ _)) hhead]
    rw [ih (j + 1) (k + 1) (fun x hx => hne x (List.mem_cons_of_mem _ hx))
        (fun x hx => hsum x (List.mem_cons_of_mem _ hx))
        (fun x hx => hpos x (List.mem_cons_of_mem _ hx))]
    rw [msContent, List.append_assoc]


theorem xmlFinish_some (s : XState) (t : ℚ) (ht : s.time = some t)
    (hne : s.time_num ≠ 0) :
    xmlFinish s =
      .ok (List.zipWith
        (fun (r : XRow) (p : ℚ × ℚ) =>
          (r.1, ratMod p.1 (s.time_num : ℚ) + 1, p.2 - p.1, r.2.1, r.2.2.1,
            r.2.2.2))
        ((if s.still_rest = true then s.data.dropLast else s.data) ++
          [("end", "rest", 0, "none")])
        (((if s.still_rest = true then
            s.duration ++
              [t + (s.time_num : ℚ) - ratMod t (s.time_num : ℚ)]
          else
            (s.duration ++
              [t + (s.time_num : ℚ) - ratMod t (s.time_num : ℚ)]) ++
              [t + (s.time_num : ℚ) + (s.time_num : ℚ) -
                ratMod t (s.time_num : ℚ)]).map
            (· * ((s.time_denom : ℚ) / 4))).zip
          ((if s.still_rest = true then
            s.duration ++
              [t + (s.time_num : ℚ) - ratMod t (s.time_num : ℚ)]
          else
            (s.duration ++
              [t + (s.time_num : ℚ) - ratMod t (s.time_num : ℚ)]) ++
              [t + (s.time_num : ℚ) + (s.time_num : ℚ) -
                ratMod t (s.time_num : ℚ)]).map
            (· * ((s.time_denom : ℚ) / 4))).tail)) := by
  rw [xmlFinish, ht]
  dsimp only
  rw [if_neg hne]

theorem c5run (n : ℤ) (ms : List (List (String × ℤ × ℚ))) (hn : 0 < n)
    (hms : ms ≠ []) (hne : ∀ segs ∈ ms, segs ≠ [])
    (hsum : ∀ segs ∈ ms, sumDur segs = (n : ℚ))
    (hpos : ∀ segs ∈ ms, ∀ sg ∈ segs, 0 < sg.2.2) :
    xmlRun (c5msgs n ms) = .ok (c5rows n ms) := by
  have hnQ : (0 : ℚ) < (n : ℚ) := by exact_mod_cast hn
  rw [xmlRun, c5msgs, List.foldl_cons]
  have hsA : xmlStep xmlInit (XMsg.timeSignature n 4) =
      { xmlInit with time_num := n, time_denom := 4 } := rfl
  rw [hsA]
  obtain ⟨p1, p2, p3, p4, p5, p6, p7, p8⟩ :=
    msFoldSpec ms 0 { xmlInit with time_num := n, time_denom := 4 } hne
  set st := List.foldl xmlStep { xmlInit with time_num := n, time_denom := 4 }
    (measuresMsgs ms 0) with hst
  have hmse : ms.isEmpty = false := by
    cases ms with
    | nil => exact absurd rfl hms
    | cons a b => rfl
  rw [hmse] at p7 p8
  simp only [if_false] at p7 p8
  have hnne : st.time_num ≠ 0 := by
    rw [p4]
    exact ne_of_gt hn
  obtain ⟨m1, mrest, rfl⟩ : ∃ m1 mrest, ms = m1 :: mrest := by
    cases ms with
    | nil => exact absurd rfl hms
    | cons a b => exact ⟨a, b, rfl⟩
  obtain ⟨rel, dl, hmsl, hrel0, hdl, hreldl⟩ :=
    msLast_spec (n : ℚ) mrest m1 0 hne hsum hpos
  have hrmod : ratMod (msLast (m1 :: mrest) 0) (n : ℚ) = rel := by
    refine ratMod_eval _ _ rel mrest.length hnQ ?_ hrel0 (by linarith)
    rw [hmsl]
    push_cast
    ring
  rw [xmlFinish_some st (msLast (m1 :: mrest) 0) p8 hnne]
  rw [p4, p5, p7, p1, p2, hrmod]
  simp only [Bool.false_eq_true, if_false, xmlInit]
  have hT1 : msLast (m1 :: mrest) 0 + (n : ℚ) - rel =
      (n : ℚ) * (((0 : ℤ) : ℚ) + (((m1 :: mrest).length : ℕ) : ℚ)) := by
    rw [hmsl]
    simp only [List.length_cons]
    push_cast
    ring
  have hT2 : msLast (m1 :: mrest) 0 + (n : ℚ) + (n : ℚ) - rel =
      (n : ℚ) * (((0 : ℤ) : ℚ) + (((m1 :: mrest).length : ℕ) : ℚ)) +
        (n : ℚ) := by
    rw [hmsl]
    simp only [List.length_cons]
    push_cast
    ring
  rw [hT1, hT2]
  rw [show (((4 : ℤ) : ℚ) / 4) = 1 by norm_num]
  simp only [mul_one, List.map_id']
  obtain ⟨sg1, m1r, rfl⟩ : ∃ sg1 m1r, m1 = sg1 :: m1r := by
    cases m1 with
    | nil => exact absurd rfl (hne [] (List.mem_cons_self _ _))
    | cons a b => exact ⟨a, b, rfl⟩
  have e6 : msOffs ((sg1 :: m1r) :: mrest) 0 =
      0 :: (segsOffs m1r (0 + sg1.2.2) ++
        msOffs mrest (0 + sumDur (sg1 :: m1r))) := rfl
  have ezip : ∀ S : List ℚ,
      ([(0 : ℚ)] ++ (msOffs ((sg1 :: m1r) :: mrest) 0 ++ S)).zip
        (([(0 : ℚ)] ++ (msOffs ((sg1 :: m1r) :: mrest) 0 ++ S)).tail) =
      ((0 : ℚ), (0 : ℚ)) ::
        pairsOf (msOffs ((sg1 :: m1r) :: mrest) 0 ++ S) := by
    intro S
    rw [List.singleton_append, List.tail_cons]
    rw [show msOffs ((sg1 :: m1r) :: mrest) 0 ++ S =
        0 :: ((segsOffs m1r (0 + sg1.2.2) ++
          msOffs mrest (0 + sumDur (sg1 :: m1r))) ++ S) from by
      rw [e6, List.cons_append]]
    rw [List.zip_cons_cons]
    rfl
  simp only [List.append_assoc]
  rw [ezip, List.singleton_append, List.zipWith_cons_cons]
  rw [show [(n : ℚ) * (((0 : ℤ) : ℚ) + (((sg1 :: m1r) :: mrest).length : ℚ))] ++
      [(n : ℚ) * (((0 : ℤ) : ℚ) + (((sg1 :: m1r) :: mrest).length : ℚ)) +
        (n : ℚ)] =
    [(n : ℚ) * (((0 : ℤ) : ℚ) + (((sg1 :: m1r) :: mrest).length : ℚ)),
     (n : ℚ) * (((0 : ℤ) : ℚ) + (((sg1 :: m1r) :: mrest).length : ℚ)) +
        (n : ℚ)] from rfl]
  rw [show msOffs ((sg1 :: m1r) :: mrest) 0 =
      msOffs ((sg1 :: m1r) :: mrest) ((n : ℚ) * ((0 : ℤ) : ℚ)) from by
    norm_num]
  rw [show (fun (r : XRow) (p : ℚ × ℚ) =>
      (r.1, ratMod p.1 ((n : ℤ) : ℚ) + 1, p.2 - p.1, r.2.1, r.2.2.1,
        r.2.2.2)) = mkRow ((n : ℤ) : ℚ) from rfl]
  rw [zipMs ((n : ℤ) : ℚ) hnQ ((sg1 :: m1r) :: mrest) 0 0 hne hsum hpos]
  rw [c5rows]
  congr 1
  simp [mkRow, ratMod_zero_left]

/-- **C5, counterexample.**  A well-formed 4/4 piece — constant time
signature, no ties, one measure exactly filled by a two-beat note and
a two-beat rest — whose trailing rest row is popped by the post-loop
phase (line 97): the only Record labelled with measure `1` is the
note, so the durations of measure 1 sum to `2`, not to the numerator
`4`; the rest's two beats are re-attributed to the `end` sentinel. -/
theorem c5_counterexample :
    xmlRun [.timeSignature 4 4, .measureMark, .note "C" 4 none 0, .rest 2] =
      .ok [("start", 1, 0, "rest", 0, "none"),
           ("1", 1, 2, "C", 4, "none"),
           ("end", 3, 2, "rest", 0, "none")] ∧
    ((([("start", 1, 0, "rest", 0, "none"),
        ("1", 1, 2, "C", 4, "none"),
        ("end", 3, 2, "rest", 0, "none")] : List Row).filter
          (fun r => r.1 == "1")).map (fun r => r.2.2.1)).sum = 2 ∧
    (2 : ℚ) ≠ ((4 : ℤ) : ℚ) := by
  have e0 : ratMod 0 4 = 0 := ratMod_zero_left 4
  have e2 : ratMod 2 4 = 2 :=
    ratMod_eval 2 4 2 0 (by norm_num) (by norm_num) (by norm_num)
      (by norm_num)
  refine ⟨?_, ?_, by norm_num⟩
  · simp [xmlRun, xmlFinish, xmlStep, xmlInit, e0, e2, int_toString_one]
    norm_num
  · have hs1 : ("start" == "1") = false := by decide
    have he1 : ("end" == "1") = false := by decide
    have h11 : ("1" == "1") = true := by decide
    simp only [List.filter, hs1, he1, h11, List.map_cons, List.map_nil,
      List.sum_cons, List.sum_nil]
    norm_num

/-- The per-measure blocks of content rows: for a piece laid out as
`ms`, block `i` (zero-based) holds measure `j + i + 1`'s rows. -/
def msBlocks (j : ℤ) : List (List (String × ℤ × ℚ)) → List (List Row)
  | [] => []
  | segs :: rest => segContent (j + 1) 0 segs :: msBlocks (j + 1) rest

theorem msContent_eq_flatten :
    ∀ (ms : List (List (String × ℤ × ℚ))) (j : ℤ),
      msContent j ms = (msBlocks j ms).flatten := by
  intro ms
  induction ms with
  | nil => intro j; rfl
  | cons segs rest ih =>
    intro j
    simp only [msContent, msBlocks, List.flatten_cons, ih]

theorem segContent_durMap :
    ∀ (segs : List (String × ℤ × ℚ)) (j : ℤ) (rel : ℚ),
      (segContent j rel segs).map (fun r => r.2.2.1) =
        segs.map (fun sg => sg.2.2) := by
  intro segs
  induction segs with
  | nil => intro j rel; rfl
  | cons sg rest ih =>
    intro j rel
    simp only [segContent, List.map_cons, List.cons.injEq]
    exact ⟨trivial, ih j (rel + sg.2.2)⟩

theorem segContent_label :
    ∀ (segs : List (String × ℤ × ℚ)) (j : ℤ) (rel : ℚ),
      ∀ r ∈ segContent j rel segs, r.1 = toString j := by
  intro segs
  induction segs with
  | nil => intro j rel r hr; simp [segContent] at hr
  | cons sg rest ih =>
    intro j rel r hr
    simp only [segContent, List.mem_cons] at hr
    rcases hr with rfl | hr
    · rfl
    · exact ih j (rel + sg.2.2) r hr

theorem msBlocks_spec (n : ℚ) :
    ∀ (ms : List (List (String × ℤ × ℚ))) (j : ℤ), 0 ≤ j →
      (∀ segs ∈ ms, sumDur segs = n) →
      (msBlocks j ms).length = ms.length ∧
      ∀ b ∈ msBlocks j ms,
        (b.map (fun r => r.2.2.1)).sum = n ∧
        ∃ j' : ℤ, 1 ≤ j' ∧ ∀ r ∈ b, r.1 = toString j' := by
  intro ms
  induction ms with
  | nil =>
    intro j hj hsum
    exact ⟨rfl, by intro b hb; simp [msBlocks] at hb⟩
  | cons segs rest ih =>
    intro j hj hsum
    obtain ⟨ihl, ihm⟩ := ih (j + 1) (by omega)
      (fun s hs => hsum s (List.mem_cons_of_mem _ hs))
    refine ⟨by simp [msBlocks, ihl], ?_⟩
    intro b hb
    simp only [msBlocks, List.mem_cons] at hb
    rcases hb with rfl | hb
    · refine ⟨?_, j + 1, by omega, segContent_label segs (j + 1) 0⟩
      rw [segContent_durMap]
      simpa [sumDur] using hsum segs (List.mem_cons_self _ _)
    · exact ihm b hb

/-- **C5, amended.**  The measure-sum invariant holds for the
measure-labelled *content* Records of a fully voiced piece, one whose
measures are filled by untied notes of positive durations summing to
the numerator: the content part of the output splits into one block
per input measure, all rows of a block carry that measure's label,
and each block's durations sum to the numerator `n` (the `/4`
denominator makes one beat one quarter).  It fails for the popped
trailing-rest Record, whose beats go to the `end` sentinel instead of
a measure-labelled row. -/
theorem c5_measure_sum_amended (n : ℤ) (ms : List (List (String × ℤ × ℚ)))
    (hn : 0 < n) (hms : ms ≠ []) (hne : ∀ segs ∈ ms, segs ≠ [])
    (hsum : ∀ segs ∈ ms, sumDur segs = (n : ℚ))
    (hpos : ∀ segs ∈ ms, ∀ sg ∈ segs, 0 < sg.2.2) :
    xmlRun (c5msgs n ms) =
      .ok (("start", 1, 0, "rest", 0, "none") ::
        ((msBlocks 0 ms).flatten ++
          [("end", 1, (n : ℚ), "rest", 0, "none")])) ∧
    (msBlocks 0 ms).length = ms.length ∧
    ∀ b ∈ msBlocks 0 ms,
      (b.map (fun r => r.2.2.1)).sum = (n : ℚ) ∧
      ∃ j : ℤ, 1 ≤ j ∧ ∀ r ∈ b, r.1 = toString j := by
  obtain ⟨hl, hm⟩ := msBlocks_spec (n : ℚ) ms 0 le_rfl hsum
  refine ⟨?_, hl, hm⟩
  rw [c5run n ms hn hms hne hsum hpos, c5rows, msContent_eq_flatten]

/-- Concrete instance for the amended C5: one 4/4 measure exactly
filled by a one-beat `C4` and a three-beat `D4`. -/
theorem c5_measure_sum_amended_witness :
    xmlRun (c5msgs 4 [[("C", 4, 1), ("D", 4, 3)]]) =
      .ok (("start", 1, 0, "rest", 0, "none") ::
        ((msBlocks 0 [[("C", 4, 1), ("D", 4, 3)]]).flatten ++
          [("end", 1, ((4 : ℤ) : ℚ), "rest", 0, "none")])) ∧
    (msBlocks 0 [[("C", 4, 1), ("D", 4, 3)]]).length =
      [[("C", (4 : ℤ), (1 : ℚ)), ("D", 4, 3)]].length ∧
    ∀ b ∈ msBlocks 0 [[("C", 4, 1), ("D", 4, 3)]],
      (b.map (fun r => r.2.2.1)).sum = ((4 : ℤ) : ℚ) ∧
      ∃ j : ℤ, 1 ≤ j ∧ ∀ r ∈ b, r.1 = toString j :=
  c5_measure_sum_amended 4 [[("C", 4, 1), ("D", 4, 3)]] (by norm_num)
    (by simp) (by simp)
    (by intro segs hs; simp only [List.mem_singleton] at hs; subst hs;
        norm_num [sumDur])
    (by intro segs hs sg hg; simp only [List.mem_singleton] at hs;
        subst hs;
        simp only [List.mem_cons, List.not_mem_nil, or_false] at hg;
        rcases hg with h | h <;> subst h <;> norm_num)

end BeyondMIDI
